import Mathlib

/-!
# Verification of the `gen` repository's TypeScript glue layer

Shallow embedding, in Lean 4, of the TypeScript code surrounding the Gen
music-notation compiler: the mod-point source editing helpers and the
debounced compile effect of `GenApp` (gen-ui), the VS Code extension's
measure-to-line translation and inline linter (vscode-gen), the
binary-search timing indices (gen-ui), and the web adapter around the
WASM compiler (gen-web).

Source text is modelled as `List Char`; JavaScript line splitting on
`'\n'`, trimming, and regular-expression scans are embedded as explicit
recursive functions over character lists.  Beat positions and durations
are modelled as rationals, MIDI numbers as integers.
-/

namespace Gen

/-! ## Characters, whitespace, lines -/

/-- The whitespace characters recognised by JavaScript's `\s`, `trim` and
`trimEnd` that can occur in practice in a line of Gen source (a line
produced by `split('\n')` contains no `'\n'`, but we include it so the
set is usable on whole texts as well). -/
def isWs (c : Char) : Bool :=
  c = ' ' || c = '\t' || c = '\n' || c = '\r' ||
  c = '\x0b' || c = '\x0c' || c = ' ' || c = '﻿'

/-- JavaScript `String.prototype.split('\n')`: the list of lines of a text.
`splitLines []` is `[[]]`, matching `"".split('\n') = [""]`. -/
def splitLines : List Char → List (List Char)
  | [] => [[]]
  | c :: rest =>
    let r := splitLines rest
    if c = '\n' then [] :: r else (c :: r.headD []) :: r.tail

/-- JavaScript `Array.prototype.join('\n')`. -/
def joinLines (ls : List (List Char)) : List Char :=
  List.intercalate ['\n'] ls

/-- JavaScript `String.prototype.trimEnd`. -/
def trimEnd (l : List Char) : List Char :=
  (l.reverse.dropWhile isWs).reverse

/-- JavaScript `String.prototype.trim`. -/
def trim (l : List Char) : List Char :=
  trimEnd (l.dropWhile isWs)

theorem splitLines_ne_nil (l : List Char) : splitLines l ≠ [] := by
  cases l with
  | nil => simp [splitLines]
  | cons c rest =>
    simp only [splitLines]
    split <;> simp

theorem splitLines_append_newline (a b : List Char) (ha : '\n' ∉ a) :
    splitLines (a ++ '\n' :: b) = a :: splitLines b := by
  induction a with
  | nil => simp [splitLines]
  | cons c rest ih =>
    simp only [List.mem_cons, not_or] at ha
    have hc : ¬ c = '\n' := fun h => ha.1 h.symm
    have h2 := ih ha.2
    simp only [List.cons_append, splitLines, if_neg hc, List.append_eq]
    rw [h2]
    simp

theorem splitLines_no_newline (a : List Char) (ha : '\n' ∉ a) :
    splitLines a = [a] := by
  induction a with
  | nil => rfl
  | cons c rest ih =>
    simp only [List.mem_cons, not_or] at ha
    have hc : ¬ c = '\n' := fun h => ha.1 h.symm
    simp only [splitLines, ih ha.2, if_neg hc]
    simp

/-- Joining lines that contain no `'\n'` and splitting again restores the
lines (the `lines.join('\n')` / `split('\n')` round trip used by
`updateSourceWithModPoint` and `parseModPointsFromSource`). -/
theorem splitLines_joinLines (ls : List (List Char)) (hne : ls ≠ [])
    (h : ∀ l ∈ ls, '\n' ∉ l) : splitLines (joinLines ls) = ls := by
  induction ls with
  | nil => exact absurd rfl hne
  | cons a rest ih =>
    cases rest with
    | nil =>
      simpa [joinLines, List.intercalate] using
        splitLines_no_newline a (h a (by simp))
    | cons b rest' =>
      have hj : joinLines (a :: b :: rest') = a ++ '\n' :: joinLines (b :: rest') := by
        simp [joinLines, List.intercalate, List.intersperse]
      rw [hj, splitLines_append_newline a _ (h a (by simp))]
      rw [ih (by simp) (fun l hl => h l (List.mem_cons_of_mem _ hl))]

/-! ## Mod points (`GenApp.tsx`)

`parseModPointsFromSource` scans every line with the regular expression
`/@(eb|bb):(\^|_)/gi` and records, per instrument group, one mod point per
match, carrying the 1-based line number and an octave shift of `+1` for
`^` and `-1` for `_`.  `updateSourceWithModPoint` edits one line: it
deletes that group's mod-point occurrences (regex
`` `\s*@${group}:[\^_]` `` with flags `gi`) and, for a non-null shift,
appends a fresh marker after `trimEnd`. -/

/-- The two transposing instrument groups of the UI. -/
inductive Group
  | eb
  | bb
deriving DecidableEq, Repr

/-- The other instrument group. -/
def Group.other : Group → Group
  | .eb => .bb
  | .bb => .eb

/-- A parsed mod point: 1-based source line and octave shift (`+1` or `-1`). -/
structure ModPoint where
  line : Nat
  octaveShift : Int
deriving DecidableEq, Repr

/-- Result of `parseModPointsFromSource`: one mod-point list per group. -/
structure ModPoints where
  eb : List ModPoint
  bb : List ModPoint
deriving DecidableEq, Repr

/-- The mod-point list of `mp` for group `g`. -/
def ModPoints.group (mp : ModPoints) : Group → List ModPoint
  | .eb => mp.eb
  | .bb => mp.bb

/-- Octave shift encoded by a mod-point modifier character. -/
def shiftOf (m : Char) : Int := if m = '^' then 1 else -1

/-- Does the pattern `@(eb|bb):(^|_)` (group letters case-insensitive) match at
the head of `l`?  Returns the matched group and the modifier character. -/
def matchHead : List Char → Option (Group × Char)
  | a :: c1 :: c2 :: b :: m :: _ =>
    if a = '@' ∧ (c2 = 'b' ∨ c2 = 'B') ∧ b = ':' ∧ (m = '^' ∨ m = '_') then
      if c1 = 'e' ∨ c1 = 'E' then some (.eb, m)
      else if c1 = 'b' ∨ c1 = 'B' then some (.bb, m)
      else none
    else none
  | _ => none

/-- One step bound of the scanners below: the scan position advances by at
least one character per step, so the line length is enough fuel. -/
def scanModPointsAux : Nat → List Char → List (Group × Char)
  | 0, _ => []
  | _, [] => []
  | fuel + 1, c :: rest =>
    match matchHead (c :: rest) with
    | some gm => gm :: scanModPointsAux fuel (rest.drop 4)
    | none => scanModPointsAux fuel rest

/-- The `modPointRegex.exec` loop over one line: left-to-right scan, and after
a match the scan resumes past the five matched characters. -/
def scanModPoints (l : List Char) : List (Group × Char) :=
  scanModPointsAux l.length l

/-- All pattern matches of a line, one per start position, with no skip after
a match (the claim's notion of "occurrence"). -/
def occChars : List Char → List (Group × Char)
  | [] => []
  | c :: rest => (matchHead (c :: rest)).toList ++ occChars rest

/-- Claim-side description of the mod points contributed by one line: at each
start position of the line where the pattern for group `g` occurs, one entry
with the given 1-based line number and shift `+1` for `^`, `-1` for `_`. -/
def specLineModPoints (g : Group) (lineNum : Nat) (line : List Char) : List ModPoint :=
  (List.range line.length).filterMap fun p =>
    match matchHead (line.drop p) with
    | some (g', m) => if g' = g then some ⟨lineNum, if m = '^' then 1 else -1⟩ else none
    | none => none

/-- Claim-side description of a line list's mod points for group `g`, first
line numbered `ln`: per-line occurrence entries, lines in order. -/
def specModPointsFrom (g : Group) (ln : Nat) : List (List Char) → List ModPoint
  | [] => []
  | line :: rest => specLineModPoints g ln line ++ specModPointsFrom g (ln + 1) rest

/-- Claim-side description of a whole source's mod points for group `g`:
per-line entries, lines in order, numbered from 1. -/
def specModPointsGroup (g : Group) (source : List Char) : List ModPoint :=
  specModPointsFrom g 1 (splitLines source)

/-- The mod points that `parseModPointsFromSource` collects for group `g` from
one line: the regex matches of the scan, filtered to `g`. -/
def modPointsOnLine (g : Group) (lineNum : Nat) (line : List Char) : List ModPoint :=
  (scanModPoints line).filterMap fun gm =>
    if gm.1 = g then some ⟨lineNum, shiftOf gm.2⟩ else none

/-- The per-line loop of `parseModPointsFromSource`, restricted to the pushes
into group `g`'s list, first line numbered `ln`. -/
def groupLinesFrom (g : Group) (ln : Nat) : List (List Char) → List ModPoint
  | [] => []
  | line :: rest => modPointsOnLine g ln line ++ groupLinesFrom g (ln + 1) rest

/-- `parseModPointsFromSource` (GenApp.tsx): split the source on `'\n'`, scan
each line with the mod-point regex, and push each match into its group's
list with the 1-based line number. -/
def parseModPointsFromSource (source : List Char) : ModPoints :=
  { eb := groupLinesFrom .eb 1 (splitLines source)
    bb := groupLinesFrom .bb 1 (splitLines source) }

theorem matchHead_some (l : List Char) (gm : Group × Char)
    (h : matchHead l = some gm) :
    ∃ c1 c2 m tl, l = '@' :: c1 :: c2 :: ':' :: m :: tl ∧
      (c1 = 'e' ∨ c1 = 'E' ∨ c1 = 'b' ∨ c1 = 'B') ∧ (c2 = 'b' ∨ c2 = 'B') ∧
      (m = '^' ∨ m = '_') ∧ gm.2 = m := by
  match l with
  | [] => simp [matchHead] at h
  | [a] => simp [matchHead] at h
  | [a, b] => simp [matchHead] at h
  | [a, b, c] => simp [matchHead] at h
  | [a, b, c, d] => simp [matchHead] at h
  | a :: c1 :: c2 :: b :: m :: tl =>
    simp only [matchHead] at h
    split_ifs at h with h1 h2 h3
    · obtain ⟨ha, hc2, hb, hm⟩ := h1
      subst ha hb
      injection h with h'
      exact ⟨c1, c2, m, tl, rfl, by tauto, hc2, hm, by rw [← h']⟩
    · obtain ⟨ha, hc2, hb, hm⟩ := h1
      subst ha hb
      injection h with h'
      exact ⟨c1, c2, m, tl, rfl, by tauto, hc2, hm, by rw [← h']⟩

theorem matchHead_head_ne (a : Char) (l : List Char) (ha : a ≠ '@') :
    matchHead (a :: l) = none := by
  match l with
  | [] => rfl
  | [_] => rfl
  | [_, _] => rfl
  | [_, _, _] => rfl
  | c1 :: c2 :: b :: m :: tl => simp [matchHead, ha]

/-- The non-overlapping regex scan finds every occurrence: after a match, the
four skipped positions can hold no pattern start (none of the matched
characters after the `@` is an `@`). -/
theorem scanModPointsAux_eq_occChars (fuel : Nat) :
    ∀ l : List Char, l.length ≤ fuel → scanModPointsAux fuel l = occChars l := by
  induction fuel with
  | zero =>
    intro l hl
    have hnil : l = [] := List.eq_nil_of_length_eq_zero (Nat.le_zero.mp hl)
    subst hnil
    rfl
  | succ n ih =>
    intro l hl
    match l with
    | [] => rfl
    | c :: rest =>
      rw [scanModPointsAux]
      cases hm : matchHead (c :: rest) with
      | none =>
        rw [occChars, hm]
        simp only [Option.toList_none, List.nil_append]
        exact ih rest (by simpa using hl)
      | some gm =>
        obtain ⟨c1, c2, m, tl, hshape, hc1, hc2, hm', -⟩ := matchHead_some _ _ hm
        cases hshape
        have h1 : matchHead (c1 :: c2 :: ':' :: m :: tl) = none :=
          matchHead_head_ne _ _ (by rcases hc1 with h | h | h | h <;> simp [h])
        have h2 : matchHead (c2 :: ':' :: m :: tl) = none :=
          matchHead_head_ne _ _ (by rcases hc2 with h | h <;> simp [h])
        have h3 : matchHead (':' :: m :: tl) = none :=
          matchHead_head_ne _ _ (by simp)
        have h4 : matchHead (m :: tl) = none :=
          matchHead_head_ne _ _ (by rcases hm' with h | h <;> simp [h])
        have hocc : occChars ('@' :: c1 :: c2 :: ':' :: m :: tl) =
            gm :: occChars tl := by
          rw [occChars, hm, occChars, h1, occChars, h2, occChars, h3, occChars, h4]
          simp
        rw [hocc]
        have hdrop : (c1 :: c2 :: ':' :: m :: tl).drop 4 = tl := rfl
        rw [hdrop]
        have htl : scanModPointsAux n tl = occChars tl :=
          ih tl (by simp at hl; omega)
        rw [htl]

theorem scanModPoints_eq_occChars (l : List Char) :
    scanModPoints l = occChars l :=
  scanModPointsAux_eq_occChars l.length l le_rfl

/-- `occChars` lists the match at every start position, in order. -/
theorem occChars_eq_filterMap (l : List Char) :
    occChars l = (List.range l.length).filterMap fun p => matchHead (l.drop p) := by
  induction l with
  | nil => rfl
  | cons c rest ih =>
    have hcomp :
        (List.range rest.length).filterMap
            ((fun p => matchHead ((c :: rest).drop p)) ∘ fun p => p + 1) =
          (List.range rest.length).filterMap fun p => matchHead (rest.drop p) := rfl
    rw [occChars, ih, List.length_cons, List.range_succ_eq_map, List.filterMap_cons,
      List.filterMap_map]
    rw [hcomp]
    simp only [List.drop_zero]
    cases hm : matchHead (c :: rest) <;> simp [hm]

theorem modPointsOnLine_eq_spec (g : Group) (lineNum : Nat) (line : List Char) :
    modPointsOnLine g lineNum line = specLineModPoints g lineNum line := by
  rw [modPointsOnLine, scanModPoints_eq_occChars, occChars_eq_filterMap,
    List.filterMap_filterMap, specLineModPoints]
  congr 1
  funext p
  cases hm : matchHead (line.drop p) with
  | none => rfl
  | some gm =>
    obtain ⟨gg, m⟩ := gm
    simp only [Option.bind_some]
    by_cases hg : gg = g <;> simp [hg, shiftOf]

/-- **C4.** `parseModPointsFromSource` returns, for each group separately,
exactly one entry per occurrence of `@<group>:^` / `@<group>:_` (group
letters case-insensitive, several occurrences per line allowed), in source
order, each carrying the occurrence's 1-based line number and octave shift
`+1` for `^`, `-1` for `_`; nothing else contributes. -/
theorem groupLinesFrom_eq_spec (g : Group) (ln : Nat) (lines : List (List Char)) :
    groupLinesFrom g ln lines = specModPointsFrom g ln lines := by
  induction lines generalizing ln with
  | nil => rfl
  | cons line rest ih =>
    rw [groupLinesFrom, specModPointsFrom, modPointsOnLine_eq_spec, ih]

theorem parseModPoints_exactly_occurrences (source : List Char) (g : Group) :
    (parseModPointsFromSource source).group g = specModPointsGroup g source := by
  cases g <;>
    simpa only [parseModPointsFromSource, ModPoints.group, specModPointsGroup] using
      groupLinesFrom_eq_spec _ 1 _

/-! ## Mod-point editing (`updateSourceWithModPoint`, GenApp.tsx) -/

/-- The capitalised group label used when inserting a marker (`Eb` / `Bb`). -/
def groupLabelChar : Group → Char
  | .eb => 'E'
  | .bb => 'B'

/-- The text appended for a new mod point: `` ` @<Label>:<mod>` ``. -/
def markerText (g : Group) (mc : Char) : List Char :=
  ' ' :: '@' :: groupLabelChar g :: 'b' :: ':' :: [mc]

/-- Fuel-indexed body of the removal scan. -/
def removeGroupAux (g : Group) : Nat → List Char → List Char
  | 0, l => l
  | _, [] => []
  | fuel + 1, c :: rest =>
    let k := ((c :: rest).takeWhile isWs).length
    match matchHead ((c :: rest).drop k) with
    | some (g', _) =>
      if g' = g then removeGroupAux g fuel ((c :: rest).drop (k + 5))
      else c :: removeGroupAux g fuel rest
    | none => c :: removeGroupAux g fuel rest

/-- The `line.replace(`\s*@<group>:[\^_]`/gi, '')` step of
`updateSourceWithModPoint`: left-to-right scan; a match is a maximal run of
whitespace followed by the group-`g` mod-point pattern, and is deleted. -/
def removeGroupModPoints (g : Group) (l : List Char) : List Char :=
  removeGroupAux g l.length l

/-- The edited line of `updateSourceWithModPoint`: group `g`'s mod points
removed; when `newShift` is non-null, a fresh marker (`^` for positive,
`_` otherwise) appended after `trimEnd`. -/
def updatedLine (g : Group) (line : List Char) (newShift : Option Int) : List Char :=
  let cleaned := removeGroupModPoints g line
  match newShift with
  | some s => trimEnd cleaned ++ markerText g (if 0 < s then '^' else '_')
  | none => cleaned

/-- `updateSourceWithModPoint` (GenApp.tsx): on an out-of-range 1-based line
number, the source is returned unchanged; otherwise the addressed line is
rewritten by `updatedLine` and the lines are re-joined with `'\n'`. -/
def updateSourceWithModPoint (source : List Char) (lineNum : Int) (g : Group)
    (newShift : Option Int) : List Char :=
  let lines := splitLines source
  let lineIndex := lineNum - 1
  if lineIndex < 0 ∨ (lines.length : Int) ≤ lineIndex then source
  else
    let i := lineIndex.toNat
    joinLines (lines.set i (updatedLine g (lines.getD i []) newShift))

/-- The octave shifts of group `g`'s occurrences on one line, in order. -/
def lineShifts (g : Group) (line : List Char) : List Int :=
  (occChars line).filterMap fun gm =>
    if gm.1 = g then some (shiftOf gm.2) else none

/-- The removal step behaved like plain deletion of group `g`'s occurrences on
this line: the cleaned line has no group-`g` occurrence left (deleting a
match did not splice together a new one), and the other group's occurrences
are untouched. Every realistic line satisfies this; only lines where
deleting a match glues surrounding characters into a fresh occurrence
(e.g. `@eb@eb:^:^`) violate it. -/
def cleanRemoval (g : Group) (line : List Char) : Prop :=
  lineShifts g (removeGroupModPoints g line) = [] ∧
  lineShifts g.other (removeGroupModPoints g line) = lineShifts g.other line

instance (g : Group) (line : List Char) : Decidable (cleanRemoval g line) :=
  inferInstanceAs (Decidable (_ ∧ _))

/-! Characters appearing in a mod-point pattern are never whitespace, so
occurrences do not reach into trailing whitespace or across a deleted
region's whitespace. -/

theorem matchHead_chars_not_ws (l : List Char) (gm : Group × Char)
    (h : matchHead l = some gm) (p : Nat) (hp : p < 5) (c : Char)
    (hc : l.get? p = some c) : ¬ isWs c := by
  obtain ⟨c1, c2, m, tl, hshape, hc1, hc2, hm, -⟩ := matchHead_some _ _ h
  subst hshape
  interval_cases p
  · simp only [List.get?_cons_zero, Option.some.injEq] at hc
    subst hc; decide
  · simp only [List.get?_cons_succ, List.get?_cons_zero, Option.some.injEq] at hc
    subst hc
    rcases hc1 with h | h | h | h <;> (subst h; decide)
  · simp only [List.get?_cons_succ, List.get?_cons_zero, Option.some.injEq] at hc
    subst hc
    rcases hc2 with h | h <;> (subst h; decide)
  · simp only [List.get?_cons_succ, List.get?_cons_zero, Option.some.injEq] at hc
    subst hc; decide
  · simp only [List.get?_cons_succ, List.get?_cons_zero, Option.some.injEq] at hc
    subst hc
    rcases hm with h | h <;> (subst h; decide)

theorem matchHead_append_ws_none (s w : List Char) (hs : s.length ≤ 4)
    (hw : ∀ c ∈ w, isWs c) : matchHead (s ++ w) = none := by
  cases hmm : matchHead (s ++ w) with
  | none => rfl
  | some gm =>
    exfalso
    have hlen : 5 ≤ (s ++ w).length := by
      obtain ⟨c1, c2, m, tl, hshape, -⟩ := matchHead_some _ _ hmm
      rw [hshape]; simp
    have hget : (s ++ w).get? 4 = w.get? (4 - s.length) := by
      rw [List.get?_append_right (by omega)]
    cases hwc : w.get? (4 - s.length) with
    | none =>
      rw [List.get?_eq_none] at hwc
      simp only [List.length_append] at hlen
      omega
    | some c =>
      have hcmem : c ∈ w := List.get?_mem hwc
      exact matchHead_chars_not_ws _ _ hmm 4 (by omega) c (hget ▸ hwc) (hw c hcmem)

/-- Appending to a list does not change the head match when the appendee is
all-whitespace. -/
theorem matchHead_append_ws (s w : List Char) (hw : ∀ c ∈ w, isWs c) :
    matchHead (s ++ w) = matchHead s := by
  match s with
  | a :: b :: c :: d :: e :: tl => rfl
  | [] =>
    rw [List.nil_append]
    exact (matchHead_append_ws_none [] w (by simp) hw).trans (rfl)
  | [a] => rw [matchHead_append_ws_none _ w (by simp) hw]; rfl
  | [a, b] => rw [matchHead_append_ws_none _ w (by simp) hw]; rfl
  | [a, b, c] => rw [matchHead_append_ws_none _ w (by simp) hw]; rfl
  | [a, b, c, d] => rw [matchHead_append_ws_none _ w (by simp) hw]; rfl

theorem occChars_all_ws (w : List Char) (hw : ∀ c ∈ w, isWs c) :
    occChars w = [] := by
  induction w with
  | nil => rfl
  | cons c rest ih =>
    rw [occChars, matchHead_head_ne c rest (by
      intro hc
      have := hw c (by simp)
      rw [hc] at this
      simp [isWs] at this)]
    exact ih fun x hx => hw x (List.mem_cons_of_mem _ hx)

theorem occChars_append_ws (a w : List Char) (hw : ∀ c ∈ w, isWs c) :
    occChars (a ++ w) = occChars a := by
  induction a with
  | nil => simpa using occChars_all_ws w hw
  | cons c rest ih =>
    rw [List.cons_append, occChars, occChars, ← List.cons_append,
      matchHead_append_ws _ _ hw, ih]

/-- `trimEnd` never removes or adds occurrences. -/
theorem occChars_trimEnd (l : List Char) : occChars (trimEnd l) = occChars l := by
  conv_rhs => rw [show l = trimEnd l ++ (l.reverse.takeWhile isWs).reverse by
    rw [trimEnd, ← List.reverse_append, List.takeWhile_append_dropWhile, List.reverse_reverse]]
  rw [occChars_append_ws]
  intro c hc
  rw [List.mem_reverse] at hc
  exact List.mem_takeWhile_imp hc

theorem matchHead_short_append_sp (s w : List Char) (hs : s.length ≤ 4)
    (hw : w.get? 0 = some ' ') : matchHead (s ++ w) = none := by
  cases hmm : matchHead (s ++ w) with
  | none => rfl
  | some gm =>
    exfalso
    have hget : (s ++ w).get? s.length = some ' ' := by
      rw [List.get?_append_right le_rfl, Nat.sub_self]
      exact hw
    exact matchHead_chars_not_ws _ _ hmm s.length (by omega) ' ' hget (by decide)

theorem matchHead_append_markerText (s : List Char) (g : Group) (mc : Char) :
    matchHead (s ++ markerText g mc) = matchHead s := by
  match s with
  | a :: b :: c :: d :: e :: tl => rfl
  | [] =>
    rw [List.nil_append, markerText, matchHead_head_ne _ _ (by decide)]
    rfl
  | [a] =>
    rw [matchHead_short_append_sp _ (markerText g mc) (by simp) (by rw [markerText]; exact rfl)]; rfl
  | [a, b] =>
    rw [matchHead_short_append_sp _ (markerText g mc) (by simp) (by rw [markerText]; exact rfl)]; rfl
  | [a, b, c] =>
    rw [matchHead_short_append_sp _ (markerText g mc) (by simp) (by rw [markerText]; exact rfl)]; rfl
  | [a, b, c, d] =>
    rw [matchHead_short_append_sp _ (markerText g mc) (by simp) (by rw [markerText]; exact rfl)]; rfl

theorem occChars_markerText (g : Group) (mc : Char) (hmc : mc = '^' ∨ mc = '_') :
    occChars (markerText g mc) = [(g, mc)] := by
  rcases hmc with h | h <;> subst h <;> cases g <;> decide

/-- Appending a fresh marker adds exactly one occurrence, at the end. -/
theorem occChars_append_marker (a : List Char) (g : Group) (mc : Char)
    (hmc : mc = '^' ∨ mc = '_') :
    occChars (a ++ markerText g mc) = occChars a ++ [(g, mc)] := by
  induction a with
  | nil => simpa using occChars_markerText g mc hmc
  | cons c rest ih =>
    rw [List.cons_append, occChars, occChars, ← List.cons_append,
      matchHead_append_markerText, ih, List.append_assoc]

theorem lineShifts_append_marker (g' g : Group) (a : List Char) (mc : Char)
    (hmc : mc = '^' ∨ mc = '_') :
    lineShifts g' (a ++ markerText g mc) =
      lineShifts g' a ++ (if g = g' then [shiftOf mc] else []) := by
  rw [lineShifts, occChars_append_marker a g mc hmc, List.filterMap_append, lineShifts]
  congr 1
  by_cases h : g = g' <;> simp [h]

theorem lineShifts_trimEnd (g : Group) (l : List Char) :
    lineShifts g (trimEnd l) = lineShifts g l := by
  rw [lineShifts, occChars_trimEnd, lineShifts]

/-- `modPointsOnLine` is the line's occurrence shifts tagged with the line
number. -/
theorem modPointsOnLine_eq_map_lineShifts (g : Group) (ln : Nat) (line : List Char) :
    modPointsOnLine g ln line = (lineShifts g line).map fun sh => ⟨ln, sh⟩ := by
  rw [modPointsOnLine, scanModPoints_eq_occChars, lineShifts, List.map_filterMap]
  congr 1
  funext gm
  by_cases h : gm.1 = g <;> simp [h]

theorem mem_modPointsOnLine_line (g : Group) (ln : Nat) (line : List Char)
    (mp : ModPoint) (h : mp ∈ modPointsOnLine g ln line) : mp.line = ln := by
  rw [modPointsOnLine_eq_map_lineShifts] at h
  obtain ⟨sh, -, rfl⟩ := List.mem_map.mp h
  rfl

theorem groupLinesFrom_append (g : Group) (ln : Nat) (a b : List (List Char)) :
    groupLinesFrom g ln (a ++ b) =
      groupLinesFrom g ln a ++ groupLinesFrom g (ln + a.length) b := by
  induction a generalizing ln with
  | nil => simp [groupLinesFrom]
  | cons line rest ih =>
    rw [List.cons_append, groupLinesFrom, groupLinesFrom, ih, List.append_assoc]
    simp only [List.length_cons]
    congr 3
    omega

theorem mem_groupLinesFrom_line (g : Group) (ln : Nat) (lines : List (List Char))
    (mp : ModPoint) (h : mp ∈ groupLinesFrom g ln lines) :
    ln ≤ mp.line ∧ mp.line < ln + lines.length := by
  induction lines generalizing ln with
  | nil => simp [groupLinesFrom] at h
  | cons line rest ih =>
    rw [groupLinesFrom, List.mem_append] at h
    rcases h with h | h
    · rw [mem_modPointsOnLine_line g ln line mp h]
      simp only [List.length_cons]
      omega
    · have h2 := ih (ln + 1) h
      simp only [List.length_cons]
      omega

theorem mem_splitLines_no_newline (x : List Char) (l : List Char)
    (hl : l ∈ splitLines x) : '\n' ∉ l := by
  induction x generalizing l with
  | nil =>
    simp only [splitLines, List.mem_singleton] at hl
    subst hl; simp
  | cons c rest ih =>
    simp only [splitLines] at hl
    by_cases hc : c = '\n'
    · rw [if_pos hc] at hl
      rcases List.mem_cons.mp hl with h | h
      · subst h; simp
      · exact ih l h
    · rw [if_neg hc] at hl
      obtain ⟨h0, t, hsplit⟩ : ∃ h0 t, splitLines rest = h0 :: t := by
        cases hs : splitLines rest with
        | nil => exact absurd hs (splitLines_ne_nil rest)
        | cons h0 t => exact ⟨h0, t, rfl⟩
      rw [hsplit] at hl
      simp only [List.headD_cons, List.tail_cons] at hl
      rcases List.mem_cons.mp hl with h | h
      · subst h
        intro hmem
        rcases List.mem_cons.mp hmem with h | h
        · exact hc h.symm
        · exact ih h0 (by rw [hsplit]; simp) h
      · exact ih l (by rw [hsplit]; exact List.mem_cons_of_mem _ h)

theorem mem_removeGroupAux (g : Group) (fuel : Nat) :
    ∀ (l : List Char) (c : Char), c ∈ removeGroupAux g fuel l → c ∈ l := by
  induction fuel with
  | zero =>
    intro l c hc
    match l with
    | [] => exact hc
    | d :: rest => exact hc
  | succ n ih =>
    intro l c hc
    match l with
    | [] => exact hc
    | d :: rest =>
      rw [removeGroupAux] at hc
      split at hc
      · split at hc
        · exact List.mem_of_mem_drop (ih _ c hc)
        · rcases List.mem_cons.mp hc with h | h
          · exact h ▸ List.mem_cons_self _ _
          · exact List.mem_cons_of_mem _ (ih rest c h)
      · rcases List.mem_cons.mp hc with h | h
        · exact h ▸ List.mem_cons_self _ _
        · exact List.mem_cons_of_mem _ (ih rest c h)

theorem mem_removeGroupModPoints (g : Group) (l : List Char) (c : Char)
    (hc : c ∈ removeGroupModPoints g l) : c ∈ l :=
  mem_removeGroupAux g l.length l c hc

theorem mem_trimEnd (l : List Char) (c : Char) (hc : c ∈ trimEnd l) : c ∈ l := by
  rw [trimEnd, List.mem_reverse] at hc
  rw [← List.mem_reverse]
  exact List.Sublist.mem hc (List.dropWhile_sublist _)

theorem no_newline_updatedLine (g : Group) (line : List Char) (ns : Option Int)
    (hline : '\n' ∉ line) : '\n' ∉ updatedLine g line ns := by
  cases ns with
  | none =>
    intro hmem
    exact hline (mem_removeGroupModPoints _ _ _ hmem)
  | some s =>
    intro hmem
    rcases List.mem_append.mp hmem with h | h
    · exact hline (mem_removeGroupModPoints _ _ _ (mem_trimEnd _ _ h))
    · simp only [markerText, List.mem_cons, List.mem_singleton] at h
      rcases h with h | h | h | h | h | h
      · exact absurd h (by decide)
      · exact absurd h (by decide)
      · cases g <;> simp [groupLabelChar] at h
      · exact absurd h (by decide)
      · exact absurd h (by decide)
      · split at h <;> simp at h

/-- In-range case of `updateSourceWithModPoint`: the line list of the result
is the original line list with line `n` (1-based) replaced. -/
theorem updateSource_splitLines (source : List Char) (g : Group) (n : Nat)
    (newShift : Option Int) (h1 : 1 ≤ n) (h2 : n ≤ (splitLines source).length) :
    splitLines (updateSourceWithModPoint source n g newShift) =
      (splitLines source).set (n - 1)
        (updatedLine g ((splitLines source).getD (n - 1) []) newShift) := by
  rw [updateSourceWithModPoint]
  have hcond : ¬ ((n : Int) - 1 < 0 ∨ ((splitLines source).length : Int) ≤ (n : Int) - 1) := by
    push_neg
    refine ⟨by omega, ?_⟩
    have hle : (n : Int) ≤ ((splitLines source).length : Int) := by exact_mod_cast h2
    omega
  rw [if_neg hcond]
  have htn : ((n : Int) - 1).toNat = n - 1 := by omega
  rw [htn]
  apply splitLines_joinLines
  · intro hnil
    apply splitLines_ne_nil source
    have hlen := congrArg List.length hnil
    rw [List.length_set] at hlen
    exact List.eq_nil_of_length_eq_zero hlen
  · intro l hl
    rcases List.mem_or_eq_of_mem_set hl with h | h
    · exact mem_splitLines_no_newline source l h
    · subst h
      apply no_newline_updatedLine
      have hmem : (splitLines source).getD (n - 1) [] ∈ splitLines source := by
        rw [List.getD_eq_getElem _ _ (by omega)]
        exact List.getElem_mem _
      exact mem_splitLines_no_newline source _ hmem

theorem take_set_self {α : Type} (l : List α) (i : Nat) (x : α) :
    (l.set i x).take i = l.take i := by
  induction l generalizing i with
  | nil => simp
  | cons a t ih =>
    cases i with
    | zero => simp
    | succ i => simp [List.set_cons_succ, ih]

theorem drop_set_succ {α : Type} (l : List α) (i : Nat) (x : α) :
    (l.set i x).drop (i + 1) = l.drop (i + 1) := by
  induction l generalizing i with
  | nil => simp
  | cons a t ih =>
    cases i with
    | zero => simp
    | succ i => simpa [List.set_cons_succ] using ih i

/-- Decomposition of the whole-source group scan around one line. -/
theorem groupLinesFrom_decomp (g' : Group) (lines : List (List Char)) (i : Nat)
    (hi : i < lines.length) :
    groupLinesFrom g' 1 lines =
      groupLinesFrom g' 1 (lines.take i) ++
        modPointsOnLine g' (i + 1) (lines.getD i []) ++
        groupLinesFrom g' (i + 2) (lines.drop (i + 1)) := by
  have hsplit : lines = (lines.take i ++ [lines.getD i []]) ++ lines.drop (i + 1) := by
    rw [List.getD_eq_getElem _ _ hi, List.append_assoc, List.singleton_append,
      ← List.drop_eq_getElem_cons hi]
    exact (List.take_append_drop i lines).symm
  have hlen : (lines.take i).length = i := by
    simp only [List.length_take]
    omega
  conv_lhs => rw [hsplit]
  rw [groupLinesFrom_append, groupLinesFrom_append, List.length_append, hlen]
  rw [show groupLinesFrom g' (1 + i) [lines.getD i []] =
      modPointsOnLine g' (1 + i) (lines.getD i []) by
    rw [groupLinesFrom, groupLinesFrom, List.append_nil]]
  rw [List.length_singleton]
  rw [show 1 + i = i + 1 by omega, show 1 + (i + 1) = i + 2 by omega]

/-- Same decomposition for the list with line `i` replaced. -/
theorem groupLinesFrom_set (g' : Group) (lines : List (List Char)) (i : Nat)
    (hi : i < lines.length) (x : List Char) :
    groupLinesFrom g' 1 (lines.set i x) =
      groupLinesFrom g' 1 (lines.take i) ++
        modPointsOnLine g' (i + 1) x ++
        groupLinesFrom g' (i + 2) (lines.drop (i + 1)) := by
  have h1 : (lines.set i x).length = lines.length := List.length_set lines i x
  have h2 : (lines.set i x).getD i [] = x := by
    rw [List.getD_eq_getElem _ _ (by omega)]
    exact List.getElem_set_self _
  have h3 : (lines.set i x).take i = lines.take i := take_set_self lines i x
  have h4 : (lines.set i x).drop (i + 1) = lines.drop (i + 1) := drop_set_succ lines i x
  rw [groupLinesFrom_decomp g' (lines.set i x) i (by omega), h2, h3, h4]

theorem parse_group_def (src : List Char) (g' : Group) :
    (parseModPointsFromSource src).group g' = groupLinesFrom g' 1 (splitLines src) := by
  cases g' <;> rfl

theorem Group.other_ne (g : Group) : g ≠ g.other := by cases g <;> decide

theorem getD_set_ne {α : Type} (l : List α) (i j : Nat) (x d : α) (h : j ≠ i) :
    (l.set i x).getD j d = l.getD j d := by
  by_cases hj : j < l.length
  · rw [List.getD_eq_getElem _ _ (by simpa using hj), List.getD_eq_getElem _ _ hj]
    exact List.getElem_set_ne (fun he => h he.symm) _
  · rw [List.getD_eq_default _ _ (by simpa using not_lt.mp hj),
      List.getD_eq_default _ _ (not_lt.mp hj)]

/-- The edited line's group-`g` mod points, with a marker appended. -/
theorem modPointsOnLine_updated_some (g : Group) (n : Nat) (line : List Char)
    (s : Int) (hs : s = 1 ∨ s = -1)
    (hclean : cleanRemoval g line) :
    modPointsOnLine g n (updatedLine g line (some s)) = [⟨n, s⟩] := by
  simp only [updatedLine]
  rw [modPointsOnLine_eq_map_lineShifts,
    lineShifts_append_marker _ _ _ _ (by rcases hs with h | h <;> subst h <;> simp),
    if_pos rfl, lineShifts_trimEnd, hclean.1, List.nil_append]
  rcases hs with h | h <;> subst h <;> simp [shiftOf]

/-- The edited line keeps the other group's mod points unchanged. -/
theorem modPointsOnLine_updated_other (g : Group) (n : Nat) (line : List Char)
    (ns : Option Int) (hclean : cleanRemoval g line) :
    modPointsOnLine g.other n (updatedLine g line ns) =
      modPointsOnLine g.other n line := by
  cases ns with
  | none =>
    simp only [updatedLine]
    rw [modPointsOnLine_eq_map_lineShifts, hclean.2,
      modPointsOnLine_eq_map_lineShifts]
  | some s =>
    simp only [updatedLine]
    rw [modPointsOnLine_eq_map_lineShifts,
      lineShifts_append_marker _ _ _ _ (by split <;> simp),
      if_neg (Group.other_ne g), List.append_nil, lineShifts_trimEnd, hclean.2,
      modPointsOnLine_eq_map_lineShifts]

/-- The edited line has no group-`g` mod points left after a null update. -/
theorem modPointsOnLine_updated_none (g : Group) (n : Nat) (line : List Char)
    (hclean : cleanRemoval g line) :
    modPointsOnLine g n (updatedLine g line none) = [] := by
  simp only [updatedLine]
  rw [modPointsOnLine_eq_map_lineShifts, hclean.1, List.map_nil]

/-- Splitting a filtered concatenation whose three parts lie strictly below,
exactly at, and strictly above line `n`. -/
theorem filter_line_decomp (A B C : List ModPoint) (n : Nat)
    (hA : ∀ mp ∈ A, mp.line < n) (hB : ∀ mp ∈ B, mp.line = n)
    (hC : ∀ mp ∈ C, n < mp.line) :
    (A ++ B ++ C).filter (fun mp => decide (mp.line < n)) = A ∧
    (A ++ B ++ C).filter (fun mp => decide (n < mp.line)) = C ∧
    (A ++ B ++ C).filter (fun mp => decide (mp.line ≠ n)) = A ++ C := by
  refine ⟨?_, ?_, ?_⟩ <;> rw [List.filter_append, List.filter_append]
  · rw [List.filter_eq_self.mpr (fun mp hmp => by simpa using hA mp hmp),
      List.filter_eq_nil_iff.mpr (fun mp hmp => by simp [hB mp hmp]),
      List.filter_eq_nil_iff.mpr (fun mp hmp => by
        have := hC mp hmp
        simp only [decide_eq_true_eq]
        omega)]
    simp
  · rw [List.filter_eq_nil_iff.mpr (fun mp hmp => by
        have := hA mp hmp
        simp only [decide_eq_true_eq]
        omega),
      List.filter_eq_nil_iff.mpr (fun mp hmp => by simp [hB mp hmp]),
      List.filter_eq_self.mpr (fun mp hmp => by simpa using hC mp hmp)]
    simp
  · rw [List.filter_eq_self.mpr (fun mp hmp => by
        have := hA mp hmp
        simp only [ne_eq, decide_not, Bool.not_eq_eq_eq_not, Bool.not_true,
          decide_eq_false_iff_not]
        omega),
      List.filter_eq_nil_iff.mpr (fun mp hmp => by simp [hB mp hmp]),
      List.filter_eq_self.mpr (fun mp hmp => by
        have := hC mp hmp
        simp only [ne_eq, decide_not, Bool.not_eq_eq_eq_not, Bool.not_true,
          decide_eq_false_iff_not]
        omega)]
    simp

/-- **C9 (amended).** Mod-point editing round-trips with mod-point parsing:
for a 1-based line number inside the text, a group `g` and a shift `±1`,
provided deleting `g`'s occurrences from that line neither leaves nor
splices together any occurrence (`cleanRemoval`), parsing the updated
source yields for `g` exactly the original entries on other lines with one
entry `⟨n, s⟩` on line `n`; with a null shift, `g`'s entries on line `n`
are removed; the other group's entries and the text of every other line are
untouched; and an out-of-range line number leaves the source unchanged. -/
theorem updateSource_parse_roundTrip (source : List Char) (g : Group) (n : Nat)
    (s : Int) (hs : s = 1 ∨ s = -1) (h1 : 1 ≤ n)
    (h2 : n ≤ (splitLines source).length)
    (hclean : cleanRemoval g ((splitLines source).getD (n - 1) [])) :
    ((parseModPointsFromSource (updateSourceWithModPoint source n g (some s))).group g =
        ((parseModPointsFromSource source).group g).filter
            (fun mp => decide (mp.line < n)) ++
          ⟨n, s⟩ :: ((parseModPointsFromSource source).group g).filter
            (fun mp => decide (n < mp.line)) ∧
      (parseModPointsFromSource (updateSourceWithModPoint source n g (some s))).group
          g.other =
        (parseModPointsFromSource source).group g.other) ∧
    ((parseModPointsFromSource (updateSourceWithModPoint source n g none)).group g =
        ((parseModPointsFromSource source).group g).filter
          (fun mp => decide (mp.line ≠ n)) ∧
      (parseModPointsFromSource (updateSourceWithModPoint source n g none)).group
          g.other =
        (parseModPointsFromSource source).group g.other) ∧
    (∀ ns : Option Int, ∀ j : Nat, j ≠ n - 1 →
      (splitLines (updateSourceWithModPoint source n g ns)).getD j [] =
        (splitLines source).getD j []) ∧
    (∀ m : Int, ∀ ns : Option Int,
      (m < 1 ∨ ((splitLines source).length : Int) < m) →
      updateSourceWithModPoint source m g ns = source) := by
  have hi : n - 1 < (splitLines source).length := by omega
  have hn1 : n - 1 + 1 = n := by omega
  have hn2 : n - 1 + 2 = n + 1 := by omega
  have hupd : ∀ ns, splitLines (updateSourceWithModPoint source n g ns) =
      (splitLines source).set (n - 1)
        (updatedLine g ((splitLines source).getD (n - 1) []) ns) :=
    fun ns => updateSource_splitLines source g n ns h1 h2
  have hparse_upd : ∀ ns g',
      (parseModPointsFromSource (updateSourceWithModPoint source n g ns)).group g' =
        groupLinesFrom g' 1 ((splitLines source).take (n - 1)) ++
          modPointsOnLine g' n
            (updatedLine g ((splitLines source).getD (n - 1) []) ns) ++
          groupLinesFrom g' (n + 1) ((splitLines source).drop n) := by
    intro ns g'
    rw [parse_group_def, hupd ns, groupLinesFrom_set g' _ (n - 1) hi, hn1, hn2]
  have hparse_orig : ∀ g', (parseModPointsFromSource source).group g' =
      groupLinesFrom g' 1 ((splitLines source).take (n - 1)) ++
        modPointsOnLine g' n ((splitLines source).getD (n - 1) []) ++
        groupLinesFrom g' (n + 1) ((splitLines source).drop n) := by
    intro g'
    rw [parse_group_def, groupLinesFrom_decomp g' _ (n - 1) hi, hn1, hn2]
  have htake_len : ((splitLines source).take (n - 1)).length = n - 1 := by
    simp only [List.length_take]
    omega
  have hA_mem : ∀ mp ∈ groupLinesFrom g 1 ((splitLines source).take (n - 1)),
      mp.line < n := by
    intro mp hmp
    have hb := mem_groupLinesFrom_line g 1 _ mp hmp
    rw [htake_len] at hb
    omega
  have hC_mem : ∀ mp ∈ groupLinesFrom g (n + 1) ((splitLines source).drop n),
      n < mp.line := by
    intro mp hmp
    have hb := mem_groupLinesFrom_line g (n + 1) _ mp hmp
    omega
  have hB_mem : ∀ mp ∈ modPointsOnLine g n ((splitLines source).getD (n - 1) []),
      mp.line = n := fun mp hmp => mem_modPointsOnLine_line g n _ mp hmp
  obtain ⟨hf1, hf2, hf3⟩ := filter_line_decomp _ _ _ n hA_mem hB_mem hC_mem
  refine ⟨⟨?_, ?_⟩, ⟨?_, ?_⟩, ?_, ?_⟩
  · rw [hparse_upd (some s) g, hparse_orig g,
      modPointsOnLine_updated_some g n _ s hs hclean, hf1, hf2]
    simp
  · rw [hparse_upd (some s) g.other, hparse_orig g.other,
      modPointsOnLine_updated_other g n _ (some s) hclean]
  · rw [hparse_upd none g, hparse_orig g,
      modPointsOnLine_updated_none g n _ hclean, hf3]
    simp
  · rw [hparse_upd none g.other, hparse_orig g.other,
      modPointsOnLine_updated_other g n _ none hclean]
  · intro ns j hj
    rw [hupd ns]
    exact getD_set_ne _ _ _ _ _ hj
  · intro m ns hm
    rw [updateSourceWithModPoint]
    rw [if_pos]
    rcases hm with h | h
    · exact Or.inl (by omega)
    · exact Or.inr (by omega)

/-- **C9, counterexample to the claim as stated.** On the line
`@eb@eb:^:^`, removing the `eb` mod points with a null shift deletes the
inner match but splices the surrounding characters into a fresh `@eb:^`
occurrence, so one `eb` mod point survives on that line even though the
claim promises they are all removed. -/
theorem updateSource_null_leaves_modPoint :
    ¬ ((parseModPointsFromSource
          (updateSourceWithModPoint ("@eb@eb:^:^".toList) 1 .eb none)).group .eb
        = []) := by decide

/-- Witness for `updateSource_parse_roundTrip`: a concrete two-line source
satisfying every hypothesis, updated on line 2 with an `Eb` up-shift. -/
theorem updateSource_parse_roundTrip_witness :
    (parseModPointsFromSource
        (updateSourceWithModPoint ("A @Bb:_\nC @Eb:^ D".toList) 2 .eb (some 1))).group
        .eb =
      ((parseModPointsFromSource ("A @Bb:_\nC @Eb:^ D".toList)).group .eb).filter
          (fun mp => decide (mp.line < 2)) ++
        ⟨2, 1⟩ :: ((parseModPointsFromSource ("A @Bb:_\nC @Eb:^ D".toList)).group
          .eb).filter (fun mp => decide (2 < mp.line)) :=
  (updateSource_parse_roundTrip ("A @Bb:_\nC @Eb:^ D".toList) .eb 2 1 (Or.inl rfl)
    (by decide) (by decide) (by decide)).1.1

/-! ## Measure-to-line translation (`findMeasureLine`, vscode-gen extension)

The VS Code extension turns a compiler message `Semantic error at measure
n: …` into a diagnostic anchored on the line of measure `n`.
`findMeasureLine` walks the lines, toggling an in-frontmatter flag at
every line whose trimmed text is `---`, skipping frontmatter lines, blank
lines and `//` comments, and counting the rest; it returns the 0-based
index of the `n`-th counted line, and `0` when there are fewer. -/

/-- The three dashes of a frontmatter delimiter line (after trimming). -/
def dashes : List Char := ['-', '-', '-']

/-- The body of `findMeasureLine`'s loop: current 0-based index `i`, measures
counted so far `acc`, and the in-frontmatter flag. -/
def findMeasureLineAux (measureNum : Nat) :
    List (List Char) → Nat → Nat → Bool → Nat
  | [], _, _, _ => 0
  | line :: rest, i, acc, inMetadata =>
    let t := trim line
    if t = dashes then findMeasureLineAux measureNum rest (i + 1) acc (!inMetadata)
    else if inMetadata then findMeasureLineAux measureNum rest (i + 1) acc inMetadata
    else if t = [] ∨ t.take 2 = ['/', '/'] then
      findMeasureLineAux measureNum rest (i + 1) acc inMetadata
    else if acc + 1 = measureNum then i
    else findMeasureLineAux measureNum rest (i + 1) (acc + 1) inMetadata

/-- `findMeasureLine` (extension.ts). -/
def findMeasureLine (source : List Char) (measureNum : Nat) : Nat :=
  findMeasureLineAux measureNum (splitLines source) 0 0 false

/-- Number of frontmatter delimiter lines in a line list. -/
def delimCount (lines : List (List Char)) : Nat :=
  lines.countP fun l => decide (trim l = dashes)

/-- Claim-side description of "line `i` holds a measure": it is not itself a
delimiter line, it lies outside the `---`-delimited frontmatter (an even
number of delimiter lines precede it), and it is non-empty after trimming
and not a `//` comment.  `pre` is the number of delimiter lines before the
sub-list under consideration. -/
def isMeasureAt (lines : List (List Char)) (pre : Nat) (i : Nat) : Prop :=
  trim (lines.getD i []) ≠ dashes ∧
  (pre + delimCount (lines.take i)) % 2 = 0 ∧
  trim (lines.getD i []) ≠ [] ∧
  (trim (lines.getD i [])).take 2 ≠ ['/', '/']

instance (lines : List (List Char)) (pre i : Nat) :
    Decidable (isMeasureAt lines pre i) :=
  inferInstanceAs (Decidable (_ ∧ _ ∧ _ ∧ _))

/-- The 0-based indices of all measure lines, in order. -/
def specMeasureFrom (lines : List (List Char)) (pre : Nat) : List Nat :=
  (List.range lines.length).filter fun i => decide (isMeasureAt lines pre i)

/-- Claim-side list of measure-line indices of a source text. -/
def measureLineIndices (source : List Char) : List Nat :=
  specMeasureFrom (splitLines source) 0

theorem isMeasureAt_cons_succ (line : List Char) (rest : List (List Char))
    (pre j : Nat) :
    isMeasureAt (line :: rest) pre (j + 1) ↔
      isMeasureAt rest (pre + (if trim line = dashes then 1 else 0)) j := by
  unfold isMeasureAt
  have hget : (line :: rest).getD (j + 1) [] = rest.getD j [] := rfl
  have htake : (line :: rest).take (j + 1) = line :: rest.take j := rfl
  rw [hget, htake]
  have hcount : delimCount (line :: rest.take j) =
      (if trim line = dashes then 1 else 0) + delimCount (rest.take j) := by
    rw [delimCount, List.countP_cons, delimCount]
    split <;> simp_all <;> omega
  rw [hcount]
  constructor <;> (rintro ⟨a, b, c, d⟩; exact ⟨a, by omega, c, d⟩)

theorem specMeasureFrom_cons (line : List Char) (rest : List (List Char))
    (pre : Nat) :
    specMeasureFrom (line :: rest) pre =
      (if isMeasureAt (line :: rest) pre 0 then [0] else []) ++
        (specMeasureFrom rest
          (pre + (if trim line = dashes then 1 else 0))).map (· + 1) := by
  rw [specMeasureFrom, List.length_cons, List.range_succ_eq_map, List.filter_cons]
  have hmap : (List.map (· + 1) (List.range rest.length)).filter
        (fun i => decide (isMeasureAt (line :: rest) pre i)) =
      ((List.range rest.length).filter
        (fun j => decide (isMeasureAt (line :: rest) pre (j + 1)))).map (· + 1) := by
    rw [List.filter_map]
    rfl
  rw [hmap]
  have hpt : ∀ j : Nat, decide (isMeasureAt (line :: rest) pre (j + 1)) =
      decide (isMeasureAt rest (pre + (if trim line = dashes then 1 else 0)) j) := by
    intro j
    exact decide_eq_decide.mpr (isMeasureAt_cons_succ line rest pre j)
  rw [List.filter_congr fun j _ => hpt j]
  by_cases h0 : isMeasureAt (line :: rest) pre 0 <;> simp [h0, specMeasureFrom]

theorem map_add_shift (S : List Nat) (i : Nat) :
    List.map (fun x => x + i) (List.map (fun x => x + 1) S) =
      List.map (fun x => x + (i + 1)) S := by
  rw [List.map_map]
  apply List.map_congr_left
  intro j _
  simp only [Function.comp_apply]
  omega

/-- The loop of `findMeasureLine` returns the `n - acc`-th entry (and `0`
past the end) of the claim-side index list, shifted by the base index. -/
theorem findMeasureLineAux_eq (n : Nat) (lines : List (List Char)) :
    ∀ (i acc pre : Nat), acc < n →
      findMeasureLineAux n lines i acc (decide (pre % 2 = 1)) =
        ((specMeasureFrom lines pre).map (· + i)).getD (n - acc - 1) 0 := by
  induction lines with
  | nil =>
    intro i acc pre _
    simp [findMeasureLineAux, specMeasureFrom]
  | cons line rest ih =>
    intro i acc pre hacc
    rw [findMeasureLineAux, specMeasureFrom_cons]
    by_cases hd : trim line = dashes
    · rw [if_pos hd, if_pos hd]
      have hflip : (!decide (pre % 2 = 1)) = decide ((pre + 1) % 2 = 1) := by
        rcases Nat.even_or_odd pre with h | h
        · have h2 : pre % 2 = 0 := Nat.even_iff.mp h
          have h3 : (pre + 1) % 2 = 1 := by omega
          simp [h2, h3]
        · have h2 : pre % 2 = 1 := Nat.odd_iff.mp h
          have h3 : (pre + 1) % 2 = 0 := by omega
          simp [h2, h3]
      have h0 : ¬ isMeasureAt (line :: rest) pre 0 := fun h => h.1 hd
      rw [if_neg h0, List.nil_append, hflip, ih (i + 1) acc (pre + 1) hacc,
        map_add_shift]
    · rw [if_neg hd, if_neg hd]
      by_cases hm : pre % 2 = 1
      · rw [if_pos (by simp [hm]), Nat.add_zero]
        have h0 : ¬ isMeasureAt (line :: rest) pre 0 := fun h => by
          have := h.2.1
          simp [delimCount] at this
          omega
        rw [if_neg h0, List.nil_append, ih (i + 1) acc pre hacc, map_add_shift]
        norm_num
      · rw [if_neg (by simp [hm]), Nat.add_zero]
        by_cases hec : trim line = [] ∨ (trim line).take 2 = ['/', '/']
        · rw [if_pos hec]
          have h0 : ¬ isMeasureAt (line :: rest) pre 0 := by
            rintro ⟨-, -, h3, h4⟩
            rcases hec with h | h
            · exact h3 (by simpa using h)
            · exact h4 (by simpa using h)
          rw [if_neg h0, List.nil_append, ih (i + 1) acc pre hacc, map_add_shift]
          norm_num
        · rw [if_neg hec]
          push_neg at hec
          have h0 : isMeasureAt (line :: rest) pre 0 := by
            refine ⟨hd, ?_, hec.1, hec.2⟩
            simp only [List.take_zero, delimCount, List.countP_nil, Nat.add_zero]
            omega
          rw [if_pos h0]
          simp only [List.singleton_append, List.map_cons]
          by_cases hn : acc + 1 = n
          · rw [if_pos hn]
            have : n - acc - 1 = 0 := by omega
            rw [this]
            simp
          · rw [if_neg hn]
            rw [ih (i + 1) (acc + 1) pre (by omega), map_add_shift]
            have hidx : n - acc - 1 = (n - (acc + 1) - 1) + 1 := by omega
            rw [hidx, List.getD_cons_succ]
            norm_num

/-- A VS Code range: 0-based start/end line and column. -/
structure VRange where
  startLine : Nat
  startCol : Nat
  endLine : Nat
  endCol : Nat
deriving DecidableEq, Repr

/-- The diagnostic range built by `lintWithCompiler`'s semantic-error branch:
line `findMeasureLine source measureNum`, columns `0` to
`lines[line]?.length || 1`. -/
def semanticDiagnosticRange (source : List Char) (measureNum : Nat) : VRange :=
  let lines := splitLines source
  let line := findMeasureLine source measureNum
  let len := (lines.getD line []).length
  ⟨line, 0, line, if len = 0 then 1 else len⟩

/-- **C3.** For a semantic error at measure `n ≥ 1`, `findMeasureLine` returns
the 0-based index of the `n`-th line outside the `---`-delimited
frontmatter that is non-empty after trimming and not a `//` comment (and
`0` when fewer such lines exist), and the produced diagnostic is anchored
on exactly that line, spanning its full (positive) length. -/
theorem findMeasureLine_semantic_spec (source : List Char) (n : Nat)
    (h1 : 1 ≤ n) :
    findMeasureLine source n = (measureLineIndices source).getD (n - 1) 0 ∧
    ∀ l, (measureLineIndices source).get? (n - 1) = some l →
      0 < ((splitLines source).getD l []).length ∧
      semanticDiagnosticRange source n =
        ⟨l, 0, l, ((splitLines source).getD l []).length⟩ := by
  have hfalse : (false : Bool) = decide ((0 : Nat) % 2 = 1) := by decide
  have hmain : findMeasureLine source n = (measureLineIndices source).getD (n - 1) 0 := by
    rw [findMeasureLine, hfalse, findMeasureLineAux_eq n _ 0 0 0 h1]
    have hid : (fun x : Nat => x + 0) = id := funext fun x => rfl
    rw [hid, List.map_id, measureLineIndices, Nat.sub_zero]
  refine ⟨hmain, ?_⟩
  intro l hsome
  have hgetD : (measureLineIndices source).getD (n - 1) 0 = l := by
    simp [List.getD, ← List.get?_eq_getElem?, hsome]
  have hmem : l ∈ measureLineIndices source := List.get?_mem hsome
  have hmeasure : isMeasureAt (splitLines source) 0 l := by
    rw [measureLineIndices, specMeasureFrom] at hmem
    exact of_decide_eq_true (List.mem_filter.mp hmem).2
  have hne : trim ((splitLines source).getD l []) ≠ [] := hmeasure.2.2.1
  have hpos : 0 < ((splitLines source).getD l []).length := by
    rcases Nat.eq_zero_or_pos ((splitLines source).getD l []).length with h | h
    · exact absurd (by rw [List.eq_nil_of_length_eq_zero h]; rfl) hne
    · exact h
  refine ⟨hpos, ?_⟩
  rw [semanticDiagnosticRange]
  simp only [hmain, hgetD]
  rw [if_neg (by omega)]

/-- Witness for `findMeasureLine_semantic_spec`: measure 2 of a source with
frontmatter, a blank line and a comment sits on 0-based line 6. -/
theorem findMeasureLine_semantic_spec_witness :
    findMeasureLine ("---\ntitle: x\n---\n\n// c\nC C G G\nA A".toList) 2 =
      (measureLineIndices
        ("---\ntitle: x\n---\n\n// c\nC C G G\nA A".toList)).getD (2 - 1) 0 ∧
    0 < ((splitLines ("---\ntitle: x\n---\n\n// c\nC C G G\nA A".toList)).getD 6 []).length :=
  ⟨(findMeasureLine_semantic_spec _ 2 (by decide)).1,
    ((findMeasureLine_semantic_spec ("---\ntitle: x\n---\n\n// c\nC C G G\nA A".toList)
      2 (by decide)).2 6 (by decide)).1⟩

/-! ## The inline linter (`lintInline`, vscode-gen extension)

`lintInline` walks the lines with an in-frontmatter flag toggled at `---`
lines.  Inside frontmatter it warns about lines that are neither blank,
`#`-prefixed nor of `key: value` shape; outside it, it reports unmatched
square brackets (count of `[` differs from count of `]`) and an invalid
note letter (`H`–`Z` standing alone, found by a non-global regex whose
reported column is `line.indexOf(match)` — the first occurrence of the
matched character).  An unterminated frontmatter produces an unclosed-
metadata error anchored at the opening delimiter.  There is no check of
parentheses. -/

/-- Diagnostic severities used by the linter. -/
inductive Severity
  | error
  | warning
deriving DecidableEq, Repr

/-- Diagnostic messages of the inline linter; `invalidNoteName` carries the
letter interpolated into the message text. -/
inductive LintMsg
  | unmatchedBrackets
  | invalidNoteName (c : Char)
  | invalidMetadataFormat
  | unclosedMetadataBlock
deriving DecidableEq, Repr

/-- A linter diagnostic: range, message, severity. -/
structure Diagnostic where
  range : VRange
  message : LintMsg
  severity : Severity
deriving DecidableEq, Repr

/-- Uppercase letters `H`–`Z` (the invalid note letters). -/
def isUpperHZ (c : Char) : Bool := 'H' ≤ c && c ≤ 'Z'

/-- Characters of the regex lookbehind `(?<![A-Za-z_^])`. -/
def isLetterOrMod (c : Char) : Bool :=
  ('A' ≤ c && c ≤ 'Z') || ('a' ≤ c && c ≤ 'z') || c = '_' || c = '^'

/-- Lowercase letters (the regex lookahead `(?![a-z])`). -/
def isLower (c : Char) : Bool := 'a' ≤ c && c ≤ 'z'

/-- The first match of `/(?<![A-Za-z_^])([HIJKLMNOPQRSTUVWXYZ])(?![a-z])/`,
scanning with the previous character at hand. -/
def findInvalidNoteAux (prev : Option Char) (l : List Char) : Option Char :=
  match l with
  | [] => none
  | c :: rest =>
    if isUpperHZ c &&
        (match prev with | some p => !isLetterOrMod p | none => true) &&
        (match rest with | r :: _ => !isLower r | [] => true) then
      some c
    else findInvalidNoteAux (some c) rest

/-- First invalid note letter of a line, per the linter's regex. -/
def findInvalidNote (line : List Char) : Option Char :=
  findInvalidNoteAux none line

/-- JavaScript `String.prototype.indexOf` for a single character (the
character is present whenever the linter uses this). -/
def indexOfChar : List Char → Char → Nat
  | [], _ => 0
  | d :: rest, c => if d = c then 0 else indexOfChar rest c + 1

/-- The diagnostics the linter produces for one line, given the
in-frontmatter flag (delimiter lines themselves produce none and are
handled by the caller). -/
def lintLineDiag (i : Nat) (line : List Char) (inMeta : Bool) : List Diagnostic :=
  let t := trim line
  if t = dashes then []
  else if inMeta then
    if t ≠ [] ∧ ':' ∉ t ∧ t.take 1 ≠ ['#'] then
      [⟨⟨i, 0, i, line.length⟩, .invalidMetadataFormat, .warning⟩]
    else []
  else if t = [] ∨ t.take 2 = ['/', '/'] then []
  else
    (if line.countP (fun c => decide (c = '[')) ≠
        line.countP (fun c => decide (c = ']')) then
      [⟨⟨i, 0, i, line.length⟩, .unmatchedBrackets, .error⟩]
    else []) ++
    (match findInvalidNote line with
      | some c =>
        [⟨⟨i, indexOfChar line c, i, indexOfChar line c + 1⟩,
          .invalidNoteName c, .error⟩]
      | none => [])

/-- The loop of `lintInline`: index, in-frontmatter flag, and the recorded
opening-delimiter index; at the end an unterminated frontmatter yields the
unclosed-metadata error. -/
def lintInlineAux : List (List Char) → Nat → Bool → Option Nat → List Diagnostic
  | [], _, inMeta, ms =>
    if inMeta then
      [⟨⟨ms.getD 0, 0, ms.getD 0, 3⟩, .unclosedMetadataBlock, .error⟩]
    else []
  | line :: rest, i, inMeta, ms =>
    if trim line = dashes then
      if inMeta then lintInlineAux rest (i + 1) false ms
      else lintInlineAux rest (i + 1) true (some i)
    else lintLineDiag i line inMeta ++ lintInlineAux rest (i + 1) inMeta ms

/-- `lintInline` (extension.ts). -/
def lintInline (source : List Char) : List Diagnostic :=
  lintInlineAux (splitLines source) 0 false none

/-- The in-frontmatter flag in force at line `j`, starting from `meta`:
flipped once per preceding delimiter line. -/
def metaAt (meta : Bool) (lines : List (List Char)) (j : Nat) : Bool :=
  Bool.xor meta (decide (delimCount (lines.take j) % 2 = 1))

theorem xor_parity_succ (meta : Bool) (c : Nat) :
    Bool.xor meta (decide ((c + 1) % 2 = 1)) = Bool.xor (!meta) (decide (c % 2 = 1)) := by
  rcases Nat.even_or_odd c with h | h
  · have h2 : c % 2 = 0 := Nat.even_iff.mp h
    have h3 : (c + 1) % 2 = 1 := by omega
    simp [h2, h3]
  · have h2 : c % 2 = 1 := Nat.odd_iff.mp h
    have h3 : (c + 1) % 2 = 0 := by omega
    simp [h2, h3]

theorem metaAt_zero (meta : Bool) (lines : List (List Char)) :
    metaAt meta lines 0 = meta := by
  simp [metaAt, delimCount]

theorem metaAt_cons_succ (meta : Bool) (line : List Char)
    (rest : List (List Char)) (j : Nat) :
    metaAt meta (line :: rest) (j + 1) =
      metaAt (if trim line = dashes then !meta else meta) rest j := by
  unfold metaAt
  have htake : (line :: rest).take (j + 1) = line :: rest.take j := rfl
  rw [htake, delimCount, List.countP_cons, ← delimCount]
  by_cases hd : trim line = dashes
  · rw [if_pos hd, if_pos (by simp [hd])]
    exact xor_parity_succ meta (delimCount (rest.take j))
  · rw [if_neg hd, if_neg (by simp [hd]), Nat.add_zero]

/-- Every diagnostic a line contributes sits on that line and is not the
unclosed-metadata error. -/
theorem lintLineDiag_shape (i : Nat) (line : List Char) (meta : Bool)
    (d : Diagnostic) (hd : d ∈ lintLineDiag i line meta) :
    d.range.startLine = i ∧ d.message ≠ .unclosedMetadataBlock := by
  rw [lintLineDiag] at hd
  split at hd
  · exact absurd hd (List.not_mem_nil d)
  · split at hd
    · split at hd
      · rw [List.mem_singleton] at hd
        subst hd
        exact ⟨rfl, by simp⟩
      · exact absurd hd (List.not_mem_nil d)
    · split at hd
      · exact absurd hd (List.not_mem_nil d)
      · rcases List.mem_append.mp hd with h | h
        · split at h
          · rw [List.mem_singleton] at h
            subst h
            exact ⟨rfl, by simp⟩
          · exact absurd h (List.not_mem_nil d)
        · split at h
          · rw [List.mem_singleton] at h
            subst h
            exact ⟨rfl, by simp⟩
          · exact absurd h (List.not_mem_nil d)

/-- Diagnostics contributed by line `j` appear in the linter's output. -/
theorem mem_lintInlineAux_of_line (lines : List (List Char)) :
    ∀ (i0 : Nat) (meta : Bool) (ms : Option Nat) (j : Nat), j < lines.length →
      ∀ d ∈ lintLineDiag (i0 + j) (lines.getD j []) (metaAt meta lines j),
        d ∈ lintInlineAux lines i0 meta ms := by
  induction lines with
  | nil =>
    intro _ _ _ j hj
    simp at hj
  | cons line rest ih =>
    intro i0 meta ms j hj d hd
    match j with
    | 0 =>
      rw [metaAt_zero] at hd
      rw [lintInlineAux]
      by_cases hdl : trim line = dashes
      · exfalso
        rw [show (line :: rest).getD 0 [] = line from rfl, lintLineDiag] at hd
        revert hd
        simp [hdl]
      · rw [if_neg hdl]
        exact List.mem_append_left _ (by simpa using hd)
    | j + 1 =>
      rw [metaAt_cons_succ, show (line :: rest).getD (j + 1) [] = rest.getD j []
        from rfl, show i0 + (j + 1) = (i0 + 1) + j by omega] at hd
      rw [lintInlineAux]
      by_cases hdl : trim line = dashes
      · rw [if_pos hdl]
        rw [if_pos hdl] at hd
        cases hmeta : meta
        · rw [if_neg (by simp)]
          exact ih (i0 + 1) true (some i0) j (by simpa using hj) d (by
            rw [hmeta] at hd
            simpa using hd)
        · rw [if_pos rfl]
          exact ih (i0 + 1) false ms j (by simpa using hj) d (by
            rw [hmeta] at hd
            simpa using hd)
      · rw [if_neg hdl]
        rw [if_neg hdl] at hd
        exact List.mem_append_right _
          (ih (i0 + 1) meta ms j (by simpa using hj) d hd)

/-- Inventory of the linter's output: every diagnostic either comes from one
line's checks (under the flag in force there) or is the unclosed-metadata
error, anchored at the recorded start or at a delimiter line. -/
theorem lintInlineAux_inventory (lines : List (List Char)) :
    ∀ (i0 : Nat) (meta : Bool) (ms : Option Nat) (d : Diagnostic),
      d ∈ lintInlineAux lines i0 meta ms →
      (∃ j, j < lines.length ∧
        d ∈ lintLineDiag (i0 + j) (lines.getD j []) (metaAt meta lines j)) ∨
      (d.message = .unclosedMetadataBlock ∧ d.severity = .error ∧
        ∃ m, d.range = ⟨m, 0, m, 3⟩ ∧
          (ms = some m ∨ (ms = none ∧ meta = true) ∨
            ∃ j, j < lines.length ∧ m = i0 + j ∧
              trim (lines.getD j []) = dashes)) := by
  induction lines with
  | nil =>
    intro i0 meta ms d hd
    rw [lintInlineAux] at hd
    split at hd
    · rw [List.mem_singleton] at hd
      subst hd
      refine Or.inr ⟨rfl, rfl, ms.getD 0, rfl, ?_⟩
      cases ms with
      | none => exact Or.inr (Or.inl ⟨rfl, by simp_all⟩)
      | some m0 => exact Or.inl rfl
    · exact absurd hd (List.not_mem_nil d)
  | cons line rest ih =>
    intro i0 meta ms d hd
    rw [lintInlineAux] at hd
    by_cases hdl : trim line = dashes
    · rw [if_pos hdl] at hd
      have hrec : ∀ (meta' : Bool) (ms' : Option Nat),
          d ∈ lintInlineAux rest (i0 + 1) meta' ms' →
          meta' = (if trim line = dashes then !meta else meta) →
          ((ms' = ms ∧ meta = true) ∨ (ms' = some i0 ∧ meta = false)) →
          (∃ j, j < (line :: rest).length ∧
            d ∈ lintLineDiag (i0 + j) ((line :: rest).getD j [])
              (metaAt meta (line :: rest) j)) ∨
          (d.message = .unclosedMetadataBlock ∧ d.severity = .error ∧
            ∃ m, d.range = ⟨m, 0, m, 3⟩ ∧
              (ms = some m ∨ (ms = none ∧ meta = true) ∨
                ∃ j, j < (line :: rest).length ∧ m = i0 + j ∧
                  trim ((line :: rest).getD j []) = dashes)) := by
        intro meta' ms' hmem hmeta' hms'
        rcases ih (i0 + 1) meta' ms' d hmem with ⟨j, hj, hline⟩ | ⟨h1, h2, m, h3, h4⟩
        · left
          refine ⟨j + 1, by simpa using hj, ?_⟩
          rw [metaAt_cons_succ, ← hmeta',
            show (line :: rest).getD (j + 1) [] = rest.getD j [] from rfl,
            show i0 + (j + 1) = (i0 + 1) + j by omega]
          exact hline
        · right
          refine ⟨h1, h2, m, h3, ?_⟩
          rcases h4 with h | ⟨hnone, hmeta2⟩ | ⟨j, hj, hm, hjd⟩
          · rcases hms' with ⟨h5, -⟩ | ⟨h5, -⟩
            · exact Or.inl (h5 ▸ h)
            · refine Or.inr (Or.inr ⟨0, by simp, ?_, hdl⟩)
              rw [h5] at h
              injection h with h
              omega
          · rcases hms' with ⟨h5, hmT⟩ | ⟨h5, -⟩
            · exfalso
              rw [hmeta', if_pos hdl, hmT] at hmeta2
              simp at hmeta2
            · rw [h5] at hnone
              exact absurd hnone (by simp)
          · exact Or.inr (Or.inr ⟨j + 1, by simpa using hj, by omega, hjd⟩)
      split at hd
      · next hmT =>
        exact hrec false ms hd (by simp [hdl, hmT]) (Or.inl ⟨rfl, hmT⟩)
      · next hmF =>
        have hmF' : meta = false := by simpa using hmF
        exact hrec true (some i0) hd (by simp [hdl, hmF'])
          (Or.inr ⟨rfl, hmF'⟩)
    · rw [if_neg hdl] at hd
      rcases List.mem_append.mp hd with h | h
      · left
        exact ⟨0, by simp, by rw [metaAt_zero]; exact h⟩
      · rcases ih (i0 + 1) meta ms d h with ⟨j, hj, hline⟩ | ⟨h1, h2, m, h3, h4⟩
        · left
          refine ⟨j + 1, by simpa using hj, ?_⟩
          rw [metaAt_cons_succ, if_neg hdl,
            show (line :: rest).getD (j + 1) [] = rest.getD j [] from rfl,
            show i0 + (j + 1) = (i0 + 1) + j by omega]
          exact hline
        · right
          refine ⟨h1, h2, m, h3, ?_⟩
          rcases h4 with h' | h' | ⟨j, hj, hm, hjd⟩
          · exact Or.inl h'
          · exact Or.inr (Or.inl h')
          · exact Or.inr (Or.inr ⟨j + 1, by simpa using hj, by omega, hjd⟩)

/-- When no delimiter line remains and the flag is set, the unclosed error
for the recorded start is emitted. -/
theorem lintInlineAux_unclosed_of_no_delim (lines : List (List Char)) :
    ∀ (i0 : Nat) (ms : Option Nat), delimCount lines = 0 →
      (⟨⟨ms.getD 0, 0, ms.getD 0, 3⟩, .unclosedMetadataBlock, .error⟩ : Diagnostic) ∈
        lintInlineAux lines i0 true ms := by
  induction lines with
  | nil =>
    intro i0 ms _
    rw [lintInlineAux, if_pos rfl]
    exact List.mem_singleton.mpr rfl
  | cons line rest ih =>
    intro i0 ms hcount
    have hdl : ¬ trim line = dashes := by
      intro h
      rw [delimCount, List.countP_cons, if_pos (by simp [h])] at hcount
      omega
    have hrest : delimCount rest = 0 := by
      rw [delimCount, List.countP_cons, if_neg (by simp [hdl])] at hcount
      simpa [delimCount] using hcount
    rw [lintInlineAux, if_neg hdl]
    exact List.mem_append_right _ (ih (i0 + 1) ms hrest)

/-- When the flag ends up set, the unclosed error is anchored at the last
delimiter line (which is the one that opened the unterminated block). -/
theorem lintInlineAux_unclosed_of_last_delim (lines : List (List Char)) :
    ∀ (i0 m : Nat) (meta : Bool) (ms : Option Nat),
      m < lines.length → trim (lines.getD m []) = dashes →
      (∀ j, m < j → j < lines.length → trim (lines.getD j []) ≠ dashes) →
      Bool.xor meta (decide (delimCount lines % 2 = 1)) = true →
      (⟨⟨i0 + m, 0, i0 + m, 3⟩, .unclosedMetadataBlock, .error⟩ : Diagnostic) ∈
        lintInlineAux lines i0 meta ms := by
  induction lines with
  | nil =>
    intro i0 m meta ms hm
    simp at hm
  | cons line rest ih =>
    intro i0 m meta ms hm hdelim hlast hfinal
    match m with
    | 0 =>
      have hdl : trim line = dashes := hdelim
      have hrest0 : delimCount rest = 0 := by
        rw [delimCount, List.countP_eq_zero]
        intro l hl
        obtain ⟨j, hj, rfl⟩ := List.getElem_of_mem hl
        have := hlast (j + 1) (by omega) (by simpa using hj)
        simp only [decide_eq_true_eq]
        intro hcontra
        exact this (by
          rw [show (line :: rest).getD (j + 1) [] = rest.getD j [] from rfl,
            List.getD_eq_getElem _ _ hj]
          exact hcontra)
      have hcnt : delimCount (line :: rest) = 1 := by
        rw [delimCount, List.countP_cons, if_pos (by simp [hdl]), ← delimCount,
          hrest0]
      rw [hcnt] at hfinal
      have hmeta : meta = false := by
        revert hfinal
        cases meta <;> simp
      subst hmeta
      rw [lintInlineAux, if_pos hdl, if_neg (by simp)]
      have := lintInlineAux_unclosed_of_no_delim rest (i0 + 1) (some i0) hrest0
      simpa using this
    | m + 1 =>
      have hrec : ∀ (meta' : Bool) (ms' : Option Nat),
          meta' = (if trim line = dashes then !meta else meta) →
          (⟨⟨i0 + (m + 1), 0, i0 + (m + 1), 3⟩, .unclosedMetadataBlock,
            .error⟩ : Diagnostic) ∈ lintInlineAux rest (i0 + 1) meta' ms' := by
        intro meta' ms' hmeta'
        have hmem := ih (i0 + 1) m meta' ms' (by simpa using hm)
          (by simpa using hdelim)
          (fun j hj1 hj2 => by
            have := hlast (j + 1) (by omega) (by simpa using hj2)
            simpa using this)
          (by
            rw [hmeta']
            by_cases hdl : trim line = dashes
            · rw [if_pos hdl]
              have hcnt : delimCount (line :: rest) = delimCount rest + 1 := by
                rw [delimCount, List.countP_cons, if_pos (by simp [hdl]),
                  ← delimCount]
              rw [hcnt, xor_parity_succ] at hfinal
              exact hfinal
            · rw [if_neg hdl]
              have hcnt : delimCount (line :: rest) = delimCount rest := by
                rw [delimCount, List.countP_cons, if_neg (by simp [hdl]),
                  ← delimCount, Nat.add_zero]
              rw [hcnt] at hfinal
              exact hfinal)
        rw [show (i0 + 1) + m = i0 + (m + 1) by omega] at hmem
        exact hmem
      rw [lintInlineAux]
      by_cases hdl : trim line = dashes
      · rw [if_pos hdl]
        cases hmeta : meta
        · rw [if_neg (by simp)]
          exact hrec true (some i0) (by simp [hdl, hmeta])
        · rw [if_pos rfl]
          exact hrec false ms (by simp [hdl, hmeta])
      · rw [if_neg hdl]
        exact List.mem_append_right _ (hrec meta ms (by simp [hdl]))

/-- Claim-side description of a regex match position for the invalid-note
check: an `H`–`Z` letter not preceded by a letter, `_` or `^` and not
followed by a lowercase letter. -/
def noteMatchAt (line : List Char) (p : Nat) : Prop :=
  isUpperHZ (line.getD p ' ') ∧
  (p = 0 ∨ ¬ isLetterOrMod (line.getD (p - 1) ' ')) ∧
  (p + 1 = line.length ∨ ¬ isLower (line.getD (p + 1) ' '))

instance (line : List Char) (p : Nat) : Decidable (noteMatchAt line p) :=
  inferInstanceAs (Decidable (_ ∧ _ ∧ _))

theorem getD_append_length (pre : List Char) (c : Char) (rest : List Char)
    (d : Char) : (pre ++ c :: rest).getD pre.length d = c := by
  induction pre with
  | nil => rfl
  | cons a t ih => simpa using ih

theorem getD_append_lt (pre suf : List Char) (k : Nat) (hk : k < pre.length)
    (d : Char) : (pre ++ suf).getD k d = pre.getD k d := by
  induction pre generalizing k with
  | nil => simp at hk
  | cons a t ih =>
    match k with
    | 0 => rfl
    | k + 1 => exact ih k (by simpa using hk)

theorem getLast?_eq_getD (pre : List Char) (hne : pre ≠ []) (d : Char) :
    pre.getLast? = some (pre.getD (pre.length - 1) d) := by
  induction pre with
  | nil => exact absurd rfl hne
  | cons a t ih =>
    cases t with
    | nil => rfl
    | cons b t' =>
      rw [List.getLast?_cons_cons, ih (by simp)]
      rfl

/-- The scanner's head test at the boundary `pre ++ c :: rest` agrees with the
claim-side match predicate at position `pre.length`. -/
theorem noteCond_iff (pre : List Char) (c : Char) (rest : List Char) :
    (isUpperHZ c &&
      (match pre.getLast? with | some p => !isLetterOrMod p | none => true) &&
      (match rest with | r :: _ => !isLower r | [] => true)) = true ↔
    noteMatchAt (pre ++ c :: rest) pre.length := by
  rw [noteMatchAt, getD_append_length]
  constructor
  · intro h
    simp only [Bool.and_eq_true] at h
    obtain ⟨⟨h1, h2⟩, h3⟩ := h
    refine ⟨h1, ?_, ?_⟩
    · cases hpre : pre with
      | nil => exact Or.inl (by simp)
      | cons a t =>
        right
        subst hpre
        rw [getD_append_lt _ _ _ (by simp)]
        rw [getLast?_eq_getD (a :: t) (by simp) ' '] at h2
        simpa using h2
    · cases hrest : rest with
      | nil =>
        left
        subst hrest
        simp
      | cons r t =>
        right
        subst hrest
        have hget : (pre ++ c :: r :: t).getD (pre.length + 1) ' ' = r := by
          have : pre ++ c :: r :: t = (pre ++ [c]) ++ r :: t := by simp
          rw [this, show pre.length + 1 = (pre ++ [c]).length by simp]
          exact getD_append_length _ _ _ _
        rw [hget]
        simpa using h3
  · rintro ⟨h1, h2, h3⟩
    simp only [Bool.and_eq_true]
    refine ⟨⟨h1, ?_⟩, ?_⟩
    · cases hpre : pre with
      | nil => rfl
      | cons a t =>
        subst hpre
        rw [getLast?_eq_getD (a :: t) (by simp) ' ']
        rcases h2 with h | h
        · simp at h
        · rw [getD_append_lt _ _ _ (by simp)] at h
          simpa using h
    · cases hrest : rest with
      | nil => rfl
      | cons r t =>
        subst hrest
        rcases h3 with h | h
        · simp at h
        · have hget : (pre ++ c :: r :: t).getD (pre.length + 1) ' ' = r := by
            have he : pre ++ c :: r :: t = (pre ++ [c]) ++ r :: t := by simp
            rw [he, show pre.length + 1 = (pre ++ [c]).length by simp]
            exact getD_append_length _ _ _ _
          rw [hget] at h
          simpa using h

/-- Correctness of the first-match scanner relative to `noteMatchAt`. -/
theorem findInvalidNoteAux_correct (suf : List Char) :
    ∀ pre : List Char,
      (∀ c, findInvalidNoteAux pre.getLast? suf = some c →
        ∃ p, pre.length ≤ p ∧ p < (pre ++ suf).length ∧
          noteMatchAt (pre ++ suf) p ∧ (pre ++ suf).getD p ' ' = c) ∧
      ((∃ p, pre.length ≤ p ∧ p < (pre ++ suf).length ∧
          noteMatchAt (pre ++ suf) p) →
        ∃ c, findInvalidNoteAux pre.getLast? suf = some c) := by
  induction suf with
  | nil =>
    intro pre
    constructor
    · intro c h
      rw [findInvalidNoteAux.eq_def] at h
      exact absurd h (by simp)
    · rintro ⟨p, hp1, hp2, -⟩
      simp at hp2
      omega
  | cons c rest ih =>
    intro pre
    have hlast : (pre ++ [c]).getLast? = some c := by
      rw [List.getLast?_concat]
    have hassoc : pre ++ c :: rest = (pre ++ [c]) ++ rest := by simp
    constructor
    · intro c' h
      rw [findInvalidNoteAux.eq_def] at h
      simp only at h
      split at h
      · next hcond =>
        injection h with h
        subst h
        exact ⟨pre.length, le_rfl, by simp,
          (noteCond_iff pre c rest).mp hcond, getD_append_length _ _ _ _⟩
      · next hcond =>
        rw [← hlast] at h
        obtain ⟨p, hp1, hp2, hp3, hp4⟩ := (ih (pre ++ [c])).1 c' h
        rw [← hassoc] at hp2 hp3 hp4
        exact ⟨p, by simp at hp1; omega, hp2, hp3, hp4⟩
    · rintro ⟨p, hp1, hp2, hp3⟩
      rw [findInvalidNoteAux.eq_def]
      simp only
      split
      · exact ⟨c, rfl⟩
      · next hcond =>
        rcases Nat.eq_or_lt_of_le hp1 with heq | hlt
        · exact absurd ((noteCond_iff pre c rest).mpr (heq ▸ hp3)) hcond
        · rw [← hlast]
          refine (ih (pre ++ [c])).2 ⟨p, by simp; omega, ?_, ?_⟩
          · rw [← hassoc]
            exact hp2
          · rw [← hassoc]
            exact hp3

/-- Helper: the full-line warning diagnostic of the frontmatter check. -/
def metaWarnDiag (i : Nat) (line : List Char) : Diagnostic :=
  ⟨⟨i, 0, i, line.length⟩, .invalidMetadataFormat, .warning⟩

/-- `findInvalidNote` finds a match character exactly when a match position
exists, and the character it returns sits at a match position. -/
theorem findInvalidNote_spec (line : List Char) :
    (∀ c, findInvalidNote line = some c →
      ∃ p, p < line.length ∧ noteMatchAt line p ∧ line.getD p ' ' = c) ∧
    ((∃ p, p < line.length ∧ noteMatchAt line p) →
      ∃ c, findInvalidNote line = some c) := by
  have h := findInvalidNoteAux_correct line []
  constructor
  · intro c hc
    obtain ⟨p, -, hp2, hp3, hp4⟩ := h.1 c hc
    exact ⟨p, by simpa using hp2, by simpa using hp3, by simpa using hp4⟩
  · rintro ⟨p, hp1, hp2⟩
    exact h.2 ⟨p, by simp, by simpa using hp1, by simpa using hp2⟩

/-- **C6.** Inside the `---`-delimited frontmatter, every line that is
non-empty, has no `:` and does not start with `#` gets the
invalid-metadata-format warning; any line containing `:` — unknown keys
included — produces no diagnostic at all; and an unterminated frontmatter
produces the unclosed-metadata error anchored at its opening `---` line
(the last delimiter line). -/
theorem lintInline_frontmatter_spec (source : List Char) :
    (∀ i, i < (splitLines source).length →
      metaAt false (splitLines source) i = true →
      trim ((splitLines source).getD i []) ≠ dashes →
      trim ((splitLines source).getD i []) ≠ [] →
      ':' ∉ trim ((splitLines source).getD i []) →
      (trim ((splitLines source).getD i [])).take 1 ≠ ['#'] →
      metaWarnDiag i ((splitLines source).getD i []) ∈ lintInline source) ∧
    (∀ i, i < (splitLines source).length →
      metaAt false (splitLines source) i = true →
      ':' ∈ trim ((splitLines source).getD i []) →
      ∀ d ∈ lintInline source, d.range.startLine ≠ i) ∧
    (delimCount (splitLines source) % 2 = 1 →
      ∀ m, m < (splitLines source).length →
        trim ((splitLines source).getD m []) = dashes →
        (∀ j, m < j → j < (splitLines source).length →
          trim ((splitLines source).getD j []) ≠ dashes) →
        (⟨⟨m, 0, m, 3⟩, .unclosedMetadataBlock, .error⟩ : Diagnostic) ∈
          lintInline source) := by
  refine ⟨?_, ?_, ?_⟩
  · intro i hi hin hnd hne hncolon hnhash
    rw [lintInline]
    have hmem : metaWarnDiag i ((splitLines source).getD i []) ∈
        lintLineDiag (0 + i) ((splitLines source).getD i [])
          (metaAt false (splitLines source) i) := by
      rw [Nat.zero_add, lintLineDiag, if_neg hnd, hin, if_pos rfl,
        if_pos ⟨hne, hncolon, hnhash⟩]
      exact List.mem_singleton.mpr rfl
    exact mem_lintInlineAux_of_line (splitLines source) 0 false none i hi _ hmem
  · intro i hi hin hcolon d hd hstart
    rw [lintInline] at hd
    rcases lintInlineAux_inventory (splitLines source) 0 false none d hd with
      ⟨j, hj, hline⟩ | ⟨h1, -, m, h3, h4⟩
    · have hji : j = i := by
        have := (lintLineDiag_shape _ _ _ d hline).1
        omega
      subst hji
      rw [Nat.zero_add] at hline
      rw [lintLineDiag] at hline
      by_cases hnd : trim ((splitLines source).getD j []) = dashes
      · rw [if_pos hnd] at hline
        exact absurd hline (List.not_mem_nil d)
      · rw [if_neg hnd, hin, if_pos rfl,
          if_neg (fun hc => hc.2.1 hcolon)] at hline
        exact absurd hline (List.not_mem_nil d)
    · have hmi : m = i := by
        rw [h3] at hstart
        exact hstart
      subst hmi
      rcases h4 with h | h | ⟨j, hj, hmj, hjd⟩
      · exact absurd h (by simp)
      · exact absurd h.2 (by simp)
      · have hji : j = m := by omega
        subst hji
        rw [hjd] at hcolon
        exact absurd hcolon (by decide)
  · intro hodd m hm hdelim hlast
    rw [lintInline]
    have := lintInlineAux_unclosed_of_last_delim (splitLines source) 0 m false
      none hm hdelim hlast (by simp [hodd])
    simpa using this

/-- Witness for `lintInline_frontmatter_spec`: in `---\nbad\nt: x`, line 1
(`bad`) gets the metadata warning, line 2 (`t: x`) produces nothing, and
the unterminated block is reported at its opening line 0. -/
theorem lintInline_frontmatter_spec_witness :
    metaWarnDiag 1 ((splitLines ("---\nbad\nt: x".toList)).getD 1 []) ∈
      lintInline ("---\nbad\nt: x".toList) ∧
    (⟨⟨0, 0, 0, 3⟩, .unclosedMetadataBlock, .error⟩ : Diagnostic) ∈
      lintInline ("---\nbad\nt: x".toList) :=
  ⟨(lintInline_frontmatter_spec ("---\nbad\nt: x".toList)).1 1 (by decide)
      (by decide) (by decide) (by decide) (by decide) (by decide),
    (lintInline_frontmatter_spec ("---\nbad\nt: x".toList)).2.2 (by decide) 0
      (by decide) (by decide) (by
        intro j hj1 hj2
        have hlen : (splitLines ("---\nbad\nt: x".toList)).length = 3 := by decide
        rw [hlen] at hj2
        interval_cases j <;> decide)⟩

/-- **C5, counterexample to the claim as stated.** The line `(C` has an
unmatched parenthesis, yet the inline linter produces no diagnostic at
all: there is no parenthesis check. -/
theorem lintInline_no_paren_check : lintInline ("(C".toList) = [] := by decide

/-- **C5 (amended).** On a line outside the frontmatter that is non-empty
after trimming and not a `//` comment, the unmatched-bracket error (full
line range) is reported exactly when the counts of `[` and `]` differ;
and when some uppercase `H`–`Z` letter stands alone (not preceded by a
letter, `_` or `^`, not followed by a lowercase letter), an
invalid-note-name error is reported whose column is the index of the
first occurrence of the reported letter in the line. No parenthesis check
is performed (see `lintInline_no_paren_check`). -/
theorem lintInline_inline_checks (source : List Char) :
    ∀ i, i < (splitLines source).length →
      metaAt false (splitLines source) i = false →
      trim ((splitLines source).getD i []) ≠ dashes →
      trim ((splitLines source).getD i []) ≠ [] →
      (trim ((splitLines source).getD i [])).take 2 ≠ ['/', '/'] →
      (((⟨⟨i, 0, i, ((splitLines source).getD i []).length⟩,
          .unmatchedBrackets, .error⟩ : Diagnostic) ∈ lintInline source) ↔
        ((splitLines source).getD i []).countP (fun c => decide (c = '[')) ≠
          ((splitLines source).getD i []).countP (fun c => decide (c = ']'))) ∧
      ((∃ p, p < ((splitLines source).getD i []).length ∧
          noteMatchAt ((splitLines source).getD i []) p) →
        ∃ c, (⟨⟨i, indexOfChar ((splitLines source).getD i []) c,
            i, indexOfChar ((splitLines source).getD i []) c + 1⟩,
            .invalidNoteName c, .error⟩ : Diagnostic) ∈ lintInline source ∧
          ∃ p, p < ((splitLines source).getD i []).length ∧
            noteMatchAt ((splitLines source).getD i []) p ∧
            ((splitLines source).getD i []).getD p ' ' = c) := by
  intro i hi hout hnd hne hnc
  constructor
  · constructor
    · intro hmem
      rw [lintInline] at hmem
      rcases lintInlineAux_inventory (splitLines source) 0 false none _ hmem with
        ⟨j, hj, hline⟩ | ⟨h1, -, -⟩
      · have hji : j = i := by
          have hs := (lintLineDiag_shape _ _ _ _ hline).1
          simp only [VRange.mk.injEq] at hs ⊢
          omega
        subst hji
        rw [Nat.zero_add, lintLineDiag, if_neg hnd, hout] at hline
        rw [if_neg (by simp), if_neg (by
          rintro (h | h)
          · exact hne h
          · exact hnc h)] at hline
        rcases List.mem_append.mp hline with h | h
        · by_cases hcnt : ((splitLines source).getD j []).countP
              (fun c => decide (c = '[')) =
              ((splitLines source).getD j []).countP (fun c => decide (c = ']'))
          · rw [if_neg (by simpa using hcnt)] at h
            exact absurd h (List.not_mem_nil _)
          · exact hcnt
        · exfalso
          revert h
          cases hfn : findInvalidNote ((splitLines source).getD j []) <;> simp [hfn]
      · simp at h1
    · intro hcnt
      rw [lintInline]
      have hmem : (⟨⟨i, 0, i, ((splitLines source).getD i []).length⟩,
          .unmatchedBrackets, .error⟩ : Diagnostic) ∈
          lintLineDiag (0 + i) ((splitLines source).getD i [])
            (metaAt false (splitLines source) i) := by
        rw [Nat.zero_add, lintLineDiag, if_neg hnd, hout, if_neg (by simp),
          if_neg (by
            rintro (h | h)
            · exact hne h
            · exact hnc h)]
        exact List.mem_append_left _ (by
          rw [if_pos hcnt]
          exact List.mem_singleton.mpr rfl)
      exact mem_lintInlineAux_of_line (splitLines source) 0 false none i hi _ hmem
  · intro hex
    obtain ⟨c, hc⟩ := (findInvalidNote_spec ((splitLines source).getD i [])).2 hex
    refine ⟨c, ?_, (findInvalidNote_spec ((splitLines source).getD i [])).1 c hc⟩
    rw [lintInline]
    have hmem : (⟨⟨i, indexOfChar ((splitLines source).getD i []) c,
        i, indexOfChar ((splitLines source).getD i []) c + 1⟩,
        .invalidNoteName c, .error⟩ : Diagnostic) ∈
        lintLineDiag (0 + i) ((splitLines source).getD i [])
          (metaAt false (splitLines source) i) := by
      rw [Nat.zero_add, lintLineDiag, if_neg hnd, hout, if_neg (by simp),
        if_neg (by
          rintro (h | h)
          · exact hne h
          · exact hnc h)]
      refine List.mem_append_right _ ?_
      rw [hc]
      exact List.mem_singleton.mpr rfl
    exact mem_lintInlineAux_of_line (splitLines source) 0 false none i hi _ hmem

/-- Witness for `lintInline_inline_checks`: on the single line `[C H`, the
bracket counts differ and `H` is an invalid note letter. -/
theorem lintInline_inline_checks_witness :
    ((⟨⟨0, 0, 0, 5⟩, .unmatchedBrackets, .error⟩ : Diagnostic) ∈
      lintInline ("[C H!".toList)) ∧
    ∃ c, (⟨⟨0, indexOfChar ((splitLines ("[C H!".toList)).getD 0 []) c,
        0, indexOfChar ((splitLines ("[C H!".toList)).getD 0 []) c + 1⟩,
        .invalidNoteName c, .error⟩ : Diagnostic) ∈ lintInline ("[C H!".toList) ∧
      ∃ p, p < ((splitLines ("[C H!".toList)).getD 0 []).length ∧
        noteMatchAt ((splitLines ("[C H!".toList)).getD 0 []) p ∧
        ((splitLines ("[C H!".toList)).getD 0 []).getD p ' ' = c :=
  ⟨((lintInline_inline_checks ("[C H!".toList) 0 (by decide) (by decide)
      (by decide) (by decide) (by decide)).1).mpr (by decide),
    (lintInline_inline_checks ("[C H!".toList) 0 (by decide) (by decide)
      (by decide) (by decide) (by decide)).2 ⟨3, by decide, by decide⟩⟩

/-! ## Binary-search timing indices (`noteTimingIndex.ts`, `chordTimingIndex.ts`)

Both indices sort their events by start time, binary-search the first
index whose start time exceeds the queried beat, and scan backwards
collecting events whose end time lies beyond the beat.  Beat positions
are rationals; the naive reference is `NoteTimingEngine.getActiveNotesAtBeat`
(`noteTimingEngine.ts`), a plain filter for
`startTime ≤ beat < startTime + duration`. -/

/-- A playback note event (gen-ui `types/index.ts`). -/
structure PlaybackNote where
  midiNote : Int
  displayMidiNote : Int
  startTime : Rat
  duration : Rat
deriving DecidableEq, Repr

/-- A note with its precomputed end time (`IndexedNote`). -/
structure IndexedNote where
  note : PlaybackNote
  endTime : Rat
deriving DecidableEq, Repr

/-- A playback chord event (gen-ui `types/index.ts`). -/
structure PlaybackChord where
  midiNotes : List Int
  startTime : Rat
  duration : Rat
deriving DecidableEq, Repr

/-- A chord with its precomputed end time (`IndexedChord`). -/
structure IndexedChord where
  chord : PlaybackChord
  endTime : Rat
deriving DecidableEq, Repr

/-- Insertion into a list sorted by `key`. -/
def insertByKey {α : Type} (key : α → Rat) (x : α) : List α → List α
  | [] => [x]
  | y :: rest =>
    if key x ≤ key y then x :: y :: rest else y :: insertByKey key x rest

/-- `Array.prototype.sort` with comparator `(a, b) => key a - key b`:
a sort by `key`. -/
def sortByKey {α : Type} (key : α → Rat) : List α → List α
  | [] => []
  | x :: rest => insertByKey key x (sortByKey key rest)

theorem insertByKey_perm {α : Type} (key : α → Rat) (x : α) (l : List α) :
    (insertByKey key x l).Perm (x :: l) := by
  induction l with
  | nil => exact List.Perm.refl _
  | cons y rest ih =>
    rw [insertByKey]
    split
    · exact List.Perm.refl _
    · exact (List.Perm.cons y ih).trans (List.Perm.swap x y rest)

theorem sortByKey_perm {α : Type} (key : α → Rat) (l : List α) :
    (sortByKey key l).Perm l := by
  induction l with
  | nil => exact List.Perm.refl _
  | cons x rest ih =>
    exact (insertByKey_perm key x (sortByKey key rest)).trans (List.Perm.cons x ih)

theorem insertByKey_sorted {α : Type} (key : α → Rat) (x : α) (l : List α)
    (hl : l.Pairwise fun a c => key a ≤ key c) :
    (insertByKey key x l).Pairwise fun a c => key a ≤ key c := by
  induction l with
  | nil => simp [insertByKey]
  | cons y rest ih =>
    rw [insertByKey]
    rcases List.pairwise_cons.mp hl with ⟨hy, hrest⟩
    split
    · next hxy =>
      refine List.pairwise_cons.mpr ⟨?_, hl⟩
      intro c hc
      rcases List.mem_cons.mp hc with h | h
      · exact h ▸ hxy
      · exact le_trans hxy (hy c h)
    · next hxy =>
      refine List.pairwise_cons.mpr ⟨?_, ih hrest⟩
      intro c hc
      have := (insertByKey_perm key x rest).mem_iff.mp hc
      rcases List.mem_cons.mp this with h | h
      · exact h ▸ le_of_not_le hxy
      · exact hy c h

theorem sortByKey_sorted {α : Type} (key : α → Rat) (l : List α) :
    (sortByKey key l).Pairwise fun a c => key a ≤ key c := by
  induction l with
  | nil => simp [sortByKey]
  | cons x rest ih => exact insertByKey_sorted key x _ ih

/-- The binary-search loop (`while (left < right) …`), with enough fuel. -/
def upperBoundAux {α : Type} (start : α → Rat) (d : α) (arr : List α) (b : Rat) :
    Nat → Nat → Nat → Nat
  | 0, left, _ => left
  | fuel + 1, left, right =>
    if left < right then
      let mid := (left + right) / 2
      if start (arr.getD mid d) ≤ b then
        upperBoundAux start d arr b fuel (mid + 1) right
      else
        upperBoundAux start d arr b fuel left mid
    else left

/-- Index of the first element whose start time exceeds `b` (the value of
`left` after the binary-search loop). -/
def upperBound {α : Type} (start : α → Rat) (d : α) (arr : List α) (b : Rat) : Nat :=
  upperBoundAux start d arr b (arr.length + 1) 0 arr.length

/-- The backwards scan from `left - 1` down to `0`: break once a start time
exceeds `b`, skip ended events, collect the rest. -/
def scanBack {α : Type} (start endT : α → Rat) (d : α) (arr : List α) (b : Rat) :
    Nat → List α
  | 0 => []
  | i + 1 =>
    let x := arr.getD i d
    if b < start x then []
    else if endT x ≤ b then scanBack start endT d arr b i
    else x :: scanBack start endT d arr b i

/-- The whole lookup: binary search, then backwards scan. -/
def activeScan {α : Type} (start endT : α → Rat) (d : α) (arr : List α)
    (b : Rat) : List α :=
  scanBack start endT d arr b (upperBound start d arr b)

theorem sorted_getD_mono {α : Type} (start : α → Rat) (d : α) (arr : List α)
    (hs : arr.Pairwise fun a c => start a ≤ start c) (i j : Nat) (hij : i ≤ j)
    (hj : j < arr.length) : start (arr.getD i d) ≤ start (arr.getD j d) := by
  rcases eq_or_lt_of_le hij with rfl | hlt
  · exact le_refl _
  · rw [List.getD_eq_getElem _ _ (lt_trans hlt hj), List.getD_eq_getElem _ _ hj]
    exact List.pairwise_iff_getElem.mp hs i j (lt_trans hlt hj) hj hlt

theorem upperBoundAux_spec {α : Type} (start : α → Rat) (d : α) (arr : List α)
    (b : Rat) (hs : arr.Pairwise fun a c => start a ≤ start c) :
    ∀ (fuel left right : Nat), left ≤ right → right ≤ arr.length →
      right - left ≤ fuel →
      (∀ k, k < left → start (arr.getD k d) ≤ b) →
      (∀ k, right ≤ k → k < arr.length → b < start (arr.getD k d)) →
      upperBoundAux start d arr b fuel left right ≤ arr.length ∧
      (∀ k, k < upperBoundAux start d arr b fuel left right →
        start (arr.getD k d) ≤ b) ∧
      (∀ k, upperBoundAux start d arr b fuel left right ≤ k → k < arr.length →
        b < start (arr.getD k d)) := by
  intro fuel
  induction fuel with
  | zero =>
    intro left right h1 h2 h3 h4 h5
    have : left = right := by omega
    subst this
    rw [upperBoundAux]
    exact ⟨h2, h4, h5⟩
  | succ fuel ih =>
    intro left right h1 h2 h3 h4 h5
    rw [upperBoundAux]
    by_cases hlr : left < right
    · rw [if_pos hlr]
      simp only
      by_cases hmid : start (arr.getD ((left + right) / 2) d) ≤ b
      · rw [if_pos hmid]
        refine ih ((left + right) / 2 + 1) right (by omega) h2 (by omega) ?_ h5
        intro k hk
        rcases Nat.lt_or_ge k left with h | h
        · exact h4 k h
        · exact le_trans
            (sorted_getD_mono start d arr hs k ((left + right) / 2) (by omega)
              (by omega)) hmid
      · rw [if_neg hmid]
        refine ih left ((left + right) / 2) (by omega) (by omega) (by omega)
          h4 ?_
        intro k hk hk2
        exact lt_of_lt_of_le (lt_of_not_le hmid)
          (sorted_getD_mono start d arr hs ((left + right) / 2) k hk hk2)
    · rw [if_neg hlr]
      have : left = right := by omega
      subst this
      exact ⟨h2, h4, h5⟩

theorem upperBound_spec {α : Type} (start : α → Rat) (d : α) (arr : List α)
    (b : Rat) (hs : arr.Pairwise fun a c => start a ≤ start c) :
    upperBound start d arr b ≤ arr.length ∧
    (∀ k, k < upperBound start d arr b → start (arr.getD k d) ≤ b) ∧
    (∀ k, upperBound start d arr b ≤ k → k < arr.length →
      b < start (arr.getD k d)) :=
  upperBoundAux_spec start d arr b hs (arr.length + 1) 0 arr.length
    (by omega) le_rfl (by omega) (by omega) (by omega)

theorem scanBack_eq {α : Type} (start endT : α → Rat) (d : α) (arr : List α)
    (b : Rat) (u : Nat) (hu : u ≤ arr.length)
    (hle : ∀ k, k < u → start (arr.getD k d) ≤ b) :
    ∀ i, i ≤ u → scanBack start endT d arr b i =
      ((arr.take i).reverse).filter fun x => decide (¬ endT x ≤ b) := by
  intro i
  induction i with
  | zero => intro _; rfl
  | succ i ih =>
    intro hi
    rw [scanBack]
    rw [if_neg (by
      simp only [not_lt]
      exact hle i (by omega))]
    have htake : arr.take (i + 1) = arr.take i ++ [arr.getD i d] := by
      rw [List.getD_eq_getElem _ _ (by omega)]
      exact (List.take_concat_get' arr i (by omega)).symm
    rw [htake, List.reverse_append, List.filter_append]
    simp only [List.reverse_cons, List.reverse_nil, List.nil_append,
      List.filter_cons, List.filter_nil]
    by_cases hend : endT (arr.getD i d) ≤ b
    · rw [if_pos hend, ih (by omega)]
      have hend2 : endT (arr[i]?.getD d) ≤ b := by
        rw [← List.getD_eq_getElem?_getD]
        exact hend
      simp [hend2]
    · rw [if_neg hend, ih (by omega)]
      have hend2 : ¬ endT (arr[i]?.getD d) ≤ b := by
        rw [← List.getD_eq_getElem?_getD]
        exact hend
      simp [hend2, not_le.mp hend2]

/-- The binary-search lookup lists exactly the events whose half-open
interval contains `b` (as a permutation of the sorted array's filter). -/
theorem activeScan_perm {α : Type} (start endT : α → Rat) (d : α)
    (arr : List α) (b : Rat) (hs : arr.Pairwise fun a c => start a ≤ start c) :
    (activeScan start endT d arr b).Perm
      (arr.filter fun x => decide (start x ≤ b ∧ b < endT x)) := by
  obtain ⟨hu_len, hA, hB⟩ := upperBound_spec start d arr b hs
  rw [activeScan, scanBack_eq start endT d arr b _ hu_len hA _ le_rfl]
  have hmem_take : ∀ x ∈ arr.take (upperBound start d arr b), start x ≤ b := by
    intro x hx
    obtain ⟨k, hk, hkx⟩ := List.getElem_of_mem hx
    have hku : k < upperBound start d arr b := by
      rw [List.length_take] at hk
      omega
    have hka : k < arr.length := by omega
    have h1 : x = arr[k] := by
      rw [← hkx]
      exact List.getElem_take _
    have h2 := hA k hku
    rw [List.getD_eq_getElem _ _ hka] at h2
    rw [h1]
    exact h2
  have hmem_drop : ∀ x ∈ arr.drop (upperBound start d arr b), b < start x := by
    intro x hx
    obtain ⟨k, hk, hkx⟩ := List.getElem_of_mem hx
    have hka : upperBound start d arr b + k < arr.length := by
      rw [List.length_drop] at hk
      omega
    have h1 : x = arr[upperBound start d arr b + k] := by
      rw [← hkx]
      exact List.getElem_drop _
    have h2 := hB (upperBound start d arr b + k) (by omega) hka
    rw [List.getD_eq_getElem _ _ hka] at h2
    rw [h1]
    exact h2
  have hfl : ((arr.take (upperBound start d arr b)).reverse.filter
      fun x => decide (¬ endT x ≤ b)) =
      ((arr.take (upperBound start d arr b)).filter
        fun x => decide (¬ endT x ≤ b)).reverse := List.filter_reverse _ _
  rw [hfl]
  refine ((arr.take (upperBound start d arr b)).filter
    (fun x => decide (¬ endT x ≤ b))).reverse_perm.trans ?_
  have hcongr : (arr.take (upperBound start d arr b)).filter
      (fun x => decide (¬ endT x ≤ b)) =
      (arr.take (upperBound start d arr b)).filter
        (fun x => decide (start x ≤ b ∧ b < endT x)) := by
    apply List.filter_congr
    intro x hx
    have hsx := hmem_take x hx
    apply decide_eq_decide.mpr
    constructor
    · intro h
      exact ⟨hsx, lt_of_not_le h⟩
    · intro h
      exact not_le.mpr h.2
  rw [hcongr]
  have hdrop_nil : (arr.drop (upperBound start d arr b)).filter
      (fun x => decide (start x ≤ b ∧ b < endT x)) = [] := by
    apply List.filter_eq_nil_iff.mpr
    intro x hx
    have hbs := hmem_drop x hx
    simp only [decide_eq_true_eq]
    rintro ⟨h1, -⟩
    exact absurd h1 (not_le.mpr hbs)
  conv_rhs => rw [← List.take_append_drop (upperBound start d arr b) arr]
  rw [List.filter_append, hdrop_nil, List.append_nil]


/-! ### JS containers

The memo cache of `NoteTimingIndex` is a JS `Map` and stores JS `Set`s.
A `Map` is modelled as an association list in insertion order (number
keys compare by value), a `Set` by the list of first occurrences of its
elements in insertion order (the order `Array.from` iterates). -/

/-- JS `Map.prototype.get` on an association list. -/
def mapGet {κ ν : Type} [DecidableEq κ] : List (κ × ν) → κ → Option ν
  | [], _ => none
  | (k0, v0) :: rest, k => if k = k0 then some v0 else mapGet rest k

/-- JS `Map.prototype.set`: overwrite the key in place, or append it. -/
def mapSet {κ ν : Type} [DecidableEq κ] : List (κ × ν) → κ → ν → List (κ × ν)
  | [], k, v => [(k, v)]
  | (k0, v0) :: rest, k, v =>
    if k = k0 then (k0, v) :: rest else (k0, v0) :: mapSet rest k v

/-- JS `Map.prototype.delete`. -/
def mapDelete {κ ν : Type} [DecidableEq κ] : List (κ × ν) → κ → List (κ × ν)
  | [], _ => []
  | (k0, v0) :: rest, k => if k = k0 then rest else (k0, v0) :: mapDelete rest k

/-- Elements not in `seen` yet, first occurrences kept, in order. -/
def jsSetAux {α : Type} [DecidableEq α] (seen : List α) : List α → List α
  | [] => []
  | x :: rest =>
    if x ∈ seen then jsSetAux seen rest else x :: jsSetAux (x :: seen) rest

/-- JS `new Set(l)` read back by `Array.from`: deduplicate, keeping the
first occurrence of each element, in insertion order. -/
def jsSetOfList {α : Type} [DecidableEq α] (l : List α) : List α := jsSetAux [] l

/-! ### The timing indices (`noteTimingIndex.ts`, `noteTimingEngine.ts`,
`chordTimingIndex.ts`)

The binary search (`upperBound`) and backward scan (`scanBack`) above are
the literal loops of `NoteTimingIndex.getActiveNotes` and
`ChordTimingIndex.getActiveChords`, which are identical up to the element
type; here they are instantiated at each index.  The naive reference is
`NoteTimingEngine.getActiveNotesAtBeat`, a plain filter. -/

/-- `NoteTimingEngine.getActiveNotesAtBeat`: the notes with
`startTime <= beat < startTime + duration`, by a plain filter. -/
def getActiveNotesAtBeat (notes : List PlaybackNote) (beat : Rat) : List PlaybackNote :=
  notes.filter fun note =>
    decide (note.startTime ≤ beat ∧ beat < note.startTime + note.duration)

/-- Stand-in for a JS array read that the scan never performs out of
range (the sortedness proofs show every scanned index is in range). -/
def defaultIndexedNote : IndexedNote := ⟨⟨0, 0, 0, 0⟩, 0⟩

/-- The state of a `NoteTimingIndex`: the indexed notes sorted by start
time and the memo cache from a beat position to the stored `Set`. -/
structure NoteTimingIndex where
  notesByStartTime : List IndexedNote
  activeNotesCache : List (Rat × List PlaybackNote)
deriving DecidableEq, Repr

/-- The `NoteTimingIndex` constructor: pair each note with
`endTime = startTime + duration` and sort by `note.startTime`
(`Array.prototype.sort` with a numeric key comparator is a stable sort by
that key); the cache starts empty. -/
def NoteTimingIndex.init (notes : List PlaybackNote) : NoteTimingIndex :=
  { notesByStartTime :=
      sortByKey (fun ix => ix.note.startTime)
        (notes.map fun note => ⟨note, note.startTime + note.duration⟩),
    activeNotesCache := [] }

/-- The uncached body of `getActiveNotes`: binary search for the first
start time beyond the beat, then backward scan pushing the notes that
have not ended, projected back to the plain notes. -/
def NoteTimingIndex.scanActiveNotes (idx : NoteTimingIndex) (beatPosition : Rat) :
    List PlaybackNote :=
  (activeScan (fun ix => ix.note.startTime) IndexedNote.endTime defaultIndexedNote
      idx.notesByStartTime beatPosition).map IndexedNote.note

/-- `NoteTimingIndex.getActiveNotes`: serve `Array.from` of the cached
`Set` if the beat was queried before, else scan and cache
`new Set(activeNotes)`.  Returns the array and the updated index state. -/
def NoteTimingIndex.getActiveNotes (idx : NoteTimingIndex) (beatPosition : Rat) :
    List PlaybackNote × NoteTimingIndex :=
  match mapGet idx.activeNotesCache beatPosition with
  | some cached => (cached, idx)
  | none =>
    (idx.scanActiveNotes beatPosition,
      { idx with activeNotesCache :=
          (mapSet idx.activeNotesCache beatPosition
            (jsSetOfList (idx.scanActiveNotes beatPosition))) })

/-- `NoteTimingIndex.precomputeForTimestamps`: query each timestamp for
its caching side effect. -/
def NoteTimingIndex.precomputeForTimestamps (idx : NoteTimingIndex)
    (timestamps : List Rat) : NoteTimingIndex :=
  timestamps.foldl (fun i t => (i.getActiveNotes t).2) idx

/-- `NoteTimingIndex.clearCache`. -/
def NoteTimingIndex.clearCache (idx : NoteTimingIndex) : NoteTimingIndex :=
  { idx with activeNotesCache := [] }

/-- Stand-in default for the chord scan, as for the notes. -/
def defaultIndexedChord : IndexedChord := ⟨⟨[], 0, 0⟩, 0⟩

/-- The `ChordTimingIndex` constructor (`chordTimingIndex.ts`): the same
map-and-sort as the note index; this class keeps no cache. -/
def ChordTimingIndex.build (chords : List PlaybackChord) : List IndexedChord :=
  sortByKey (fun ic => ic.chord.startTime)
    (chords.map fun chord => ⟨chord, chord.startTime + chord.duration⟩)

/-- `ChordTimingIndex.getActiveChords`: the identical binary search and
backward scan over the sorted chords. -/
def ChordTimingIndex.getActiveChords (idx : List IndexedChord) (beatPosition : Rat) :
    List PlaybackChord :=
  (activeScan (fun ic => ic.chord.startTime) IndexedChord.endTime defaultIndexedChord
      idx beatPosition).map IndexedChord.chord

/-- Scanning the index built by sorting `l.map mk` and projecting with
`elT` permutes the filter of the mapped list. -/
theorem activeScan_sorted_map_perm {α ι : Type} (key endT : ι → Rat) (d : ι)
    (elT : ι → α) (mk : α → ι) (l : List α) (b : Rat) :
    ((activeScan key endT d (sortByKey key (l.map mk)) b).map elT).Perm
      (((l.map mk).filter fun i => decide (key i ≤ b ∧ b < endT i)).map elT) := by
  refine ((activeScan_perm key endT d _ b (sortByKey_sorted key (l.map mk))).map elT).trans ?_
  exact ((sortByKey_perm key (l.map mk)).filter _).map elT

theorem map_note_mk (l : List PlaybackNote) :
    l.map (IndexedNote.note ∘ fun note =>
      (⟨note, note.startTime + note.duration⟩ : IndexedNote)) = l := by
  induction l with
  | nil => rfl
  | cons x r ih =>
    rw [List.map_cons, ih]
    rfl

theorem map_chord_mk (l : List PlaybackChord) :
    l.map (IndexedChord.chord ∘ fun chord =>
      (⟨chord, chord.startTime + chord.duration⟩ : IndexedChord)) = l := by
  induction l with
  | nil => rfl
  | cons x r ih =>
    rw [List.map_cons, ih]
    rfl

/-- On a fresh index the scan agrees with the naive filter of the engine
as a multiset. -/
theorem scanActiveNotes_init_perm (notes : List PlaybackNote) (b : Rat) :
    ((NoteTimingIndex.init notes).scanActiveNotes b).Perm (getActiveNotesAtBeat notes b) := by
  have h := activeScan_sorted_map_perm (fun ix : IndexedNote => ix.note.startTime)
    IndexedNote.endTime defaultIndexedNote IndexedNote.note
    (fun note => ⟨note, note.startTime + note.duration⟩) notes b
  rw [List.filter_map, List.map_map, map_note_mk] at h
  exact h

/-- A fresh index has an empty cache, so the first query scans. -/
theorem getActiveNotes_init_eq_scan (notes : List PlaybackNote) (b : Rat) :
    ((NoteTimingIndex.init notes).getActiveNotes b).1 =
      (NoteTimingIndex.init notes).scanActiveNotes b := rfl

theorem getActiveChords_build_perm (chords : List PlaybackChord) (b : Rat) :
    (ChordTimingIndex.getActiveChords (ChordTimingIndex.build chords) b).Perm
      (chords.filter fun c => decide (c.startTime ≤ b ∧ b < c.startTime + c.duration)) := by
  have h := activeScan_sorted_map_perm (fun ic : IndexedChord => ic.chord.startTime)
    IndexedChord.endTime defaultIndexedChord IndexedChord.chord
    (fun chord => ⟨chord, chord.startTime + chord.duration⟩) chords b
  rw [List.filter_map, List.map_map, map_chord_mk] at h
  exact h

/-- **C8.** For every finite list of playback events in any order and
every beat position, the binary-search lookup of a fresh
`NoteTimingIndex` returns exactly the notes whose half-open interval
`startTime <= b < startTime + duration` contains the beat: it is a
permutation of the naive `NoteTimingEngine.getActiveNotesAtBeat` filter,
every returned note satisfies the half-open bound — so no event is
reported active at its exact end time — and
`ChordTimingIndex.getActiveChords` likewise permutes the naive filter
over chords. -/
theorem timingIndex_refines_naive_filter (notes : List PlaybackNote)
    (chords : List PlaybackChord) (b : Rat) :
    ((NoteTimingIndex.init notes).getActiveNotes b).1.Perm (getActiveNotesAtBeat notes b) ∧
    (∀ n ∈ ((NoteTimingIndex.init notes).getActiveNotes b).1,
      n.startTime ≤ b ∧ b < n.startTime + n.duration ∧ b ≠ n.startTime + n.duration) ∧
    (ChordTimingIndex.getActiveChords (ChordTimingIndex.build chords) b).Perm
      (chords.filter fun c => decide (c.startTime ≤ b ∧ b < c.startTime + c.duration)) := by
  have hp : ((NoteTimingIndex.init notes).getActiveNotes b).1.Perm
      (getActiveNotesAtBeat notes b) := by
    rw [getActiveNotes_init_eq_scan]
    exact scanActiveNotes_init_perm notes b
  refine ⟨hp, ?_, getActiveChords_build_perm chords b⟩
  intro n hn
  have hmem := hp.mem_iff.mp hn
  rw [getActiveNotesAtBeat] at hmem
  have hcond := List.of_mem_filter hmem
  simp only [decide_eq_true_eq] at hcond
  exact ⟨hcond.1, hcond.2, ne_of_lt hcond.2⟩


/-! ### Observable effect of the memo cache (`noteTimingIndex.ts`)

`getActiveNotes` caches `new Set(activeNotes)` and serves later queries
at the same beat from that `Set`; `precomputeForTimestamps` warms the
cache and `clearCache` empties it.  The machine below applies any
sequence of these three public operations to a fresh index. -/

theorem mapGet_mem {κ ν : Type} [DecidableEq κ] (m : List (κ × ν)) (k : κ) (v : ν)
    (h : mapGet m k = some v) : (k, v) ∈ m := by
  induction m with
  | nil => cases h
  | cons p rest ih =>
    obtain ⟨k0, v0⟩ := p
    rw [mapGet] at h
    by_cases hk : k = k0
    · rw [if_pos hk] at h
      injection h with hv
      subst hk
      subst hv
      exact List.mem_cons_self _ _
    · rw [if_neg hk] at h
      exact List.mem_cons_of_mem _ (ih h)

theorem mem_mapSet {κ ν : Type} [DecidableEq κ] (m : List (κ × ν)) (k : κ) (v : ν)
    (p : κ × ν) (h : p ∈ mapSet m k v) : p = (k, v) ∨ p ∈ m := by
  induction m with
  | nil =>
    rw [mapSet] at h
    rcases List.mem_singleton.mp h with rfl
    exact Or.inl rfl
  | cons q rest ih =>
    obtain ⟨k0, v0⟩ := q
    rw [mapSet] at h
    by_cases hk : k = k0
    · rw [if_pos hk] at h
      rcases List.mem_cons.mp h with rfl | hm
      · subst hk
        exact Or.inl rfl
      · exact Or.inr (List.mem_cons_of_mem _ hm)
    · rw [if_neg hk] at h
      rcases List.mem_cons.mp h with rfl | hm
      · exact Or.inr (List.mem_cons_self _ _)
      · rcases ih hm with h1 | h1
        · exact Or.inl h1
        · exact Or.inr (List.mem_cons_of_mem _ h1)

theorem jsSetAux_eq_self {α : Type} [DecidableEq α] :
    ∀ (l seen : List α), l.Nodup → (∀ x ∈ l, x ∉ seen) → jsSetAux seen l = l := by
  intro l
  induction l with
  | nil => intro seen _ _; rfl
  | cons x rest ih =>
    intro seen hnd hdisj
    rw [jsSetAux, if_neg (hdisj x (List.mem_cons_self x rest))]
    have hrec := ih (x :: seen) (List.nodup_cons.mp hnd).2 ?_
    · rw [hrec]
    · intro y hy
      intro hmem
      rcases List.mem_cons.mp hmem with rfl | hys
      · exact (List.nodup_cons.mp hnd).1 hy
      · exact hdisj y (List.mem_cons_of_mem _ hy) hys

/-- On a duplicate-free list the `Set` round trip is the identity. -/
theorem jsSetOfList_eq_self {α : Type} [DecidableEq α] (l : List α) (h : l.Nodup) :
    jsSetOfList l = l :=
  jsSetAux_eq_self l [] h (fun x _ => List.not_mem_nil x)

/-- With duplicate-free notes the fresh scan result is duplicate-free. -/
theorem scanActiveNotes_init_nodup (notes : List PlaybackNote) (hnd : notes.Nodup)
    (b : Rat) : ((NoteTimingIndex.init notes).scanActiveNotes b).Nodup :=
  (scanActiveNotes_init_perm notes b).nodup_iff.mpr (hnd.filter _)

/-- A public operation on a `NoteTimingIndex`. -/
inductive CacheOp where
  | query (b : Rat)
  | precompute (timestamps : List Rat)
  | clearCache

def applyOp (idx : NoteTimingIndex) : CacheOp → NoteTimingIndex
  | .query b => (idx.getActiveNotes b).2
  | .precompute ts => idx.precomputeForTimestamps ts
  | .clearCache => idx.clearCache

def applyOps (idx : NoteTimingIndex) (ops : List CacheOp) : NoteTimingIndex :=
  ops.foldl applyOp idx

/-- The invariant the operations preserve: the sorted array never
changes, and the cache only ever holds, at a beat, the `Set` of the
fresh scan at that beat. -/
def cacheFaithful (notes : List PlaybackNote) (idx : NoteTimingIndex) : Prop :=
  idx.notesByStartTime = (NoteTimingIndex.init notes).notesByStartTime ∧
  ∀ t s, (t, s) ∈ idx.activeNotesCache →
    s = jsSetOfList ((NoteTimingIndex.init notes).scanActiveNotes t)

theorem scanActiveNotes_congr (idx jdx : NoteTimingIndex)
    (h : idx.notesByStartTime = jdx.notesByStartTime) (b : Rat) :
    idx.scanActiveNotes b = jdx.scanActiveNotes b := by
  rw [NoteTimingIndex.scanActiveNotes, NoteTimingIndex.scanActiveNotes, h]

theorem cacheFaithful_init (notes : List PlaybackNote) :
    cacheFaithful notes (NoteTimingIndex.init notes) :=
  ⟨rfl, fun _ _ h => absurd h (List.not_mem_nil _)⟩

theorem cacheFaithful_query (notes : List PlaybackNote) (idx : NoteTimingIndex)
    (hf : cacheFaithful notes idx) (b : Rat) :
    cacheFaithful notes (idx.getActiveNotes b).2 := by
  obtain ⟨h1, h2⟩ := hf
  rw [NoteTimingIndex.getActiveNotes]
  split
  · exact ⟨h1, h2⟩
  · refine ⟨h1, ?_⟩
    intro t s hts
    rcases mem_mapSet _ _ _ _ hts with heq | hmem
    · have ht : t = b := congrArg Prod.fst heq
      have hs : s = jsSetOfList (idx.scanActiveNotes b) := congrArg Prod.snd heq
      rw [hs, ht, scanActiveNotes_congr idx (NoteTimingIndex.init notes) h1 b]
    · exact h2 t s hmem

theorem cacheFaithful_precompute (notes : List PlaybackNote) (ts : List Rat) :
    ∀ idx, cacheFaithful notes idx →
      cacheFaithful notes (idx.precomputeForTimestamps ts) := by
  induction ts with
  | nil => intro idx hf; exact hf
  | cons t rest ih =>
    intro idx hf
    rw [NoteTimingIndex.precomputeForTimestamps, List.foldl_cons]
    exact ih _ (cacheFaithful_query notes idx hf t)

theorem cacheFaithful_applyOps (notes : List PlaybackNote) (ops : List CacheOp) :
    ∀ idx, cacheFaithful notes idx → cacheFaithful notes (applyOps idx ops) := by
  induction ops with
  | nil => intro idx hf; exact hf
  | cons op rest ih =>
    intro idx hf
    rw [applyOps, List.foldl_cons]
    refine ih _ ?_
    cases op with
    | query b => exact cacheFaithful_query notes idx hf b
    | precompute ts => exact cacheFaithful_precompute notes ts idx hf
    | clearCache => exact ⟨hf.1, fun _ _ h => absurd h (List.not_mem_nil _)⟩

theorem getActiveNotes_faithful_eq (notes : List PlaybackNote) (hnd : notes.Nodup)
    (idx : NoteTimingIndex) (hf : cacheFaithful notes idx) (b : Rat) :
    (idx.getActiveNotes b).1 = ((NoteTimingIndex.init notes).getActiveNotes b).1 := by
  obtain ⟨h1, h2⟩ := hf
  rw [getActiveNotes_init_eq_scan]
  rw [NoteTimingIndex.getActiveNotes]
  split
  next cached hc =>
    have hcv := h2 b cached (mapGet_mem _ _ _ hc)
    rw [hcv, jsSetOfList_eq_self _ (scanActiveNotes_init_nodup notes hnd b)]
  next hc =>
    exact scanActiveNotes_congr idx _ h1 b

/-- **C10.** The memo cache is observationally transparent: after any
sequence of `getActiveNotes`, `precomputeForTimestamps` and `clearCache`
operations, a query at any beat returns exactly the same list — same
notes, same order — as the first query on the fresh index.  The JS `Set`
stored in the cache is keyed by object identity and the note array's
elements are distinct objects; the embedding uses structural equality,
so that identity discipline appears as the duplicate-freeness hypothesis
on the notes. -/
theorem getActiveNotes_cache_transparent (notes : List PlaybackNote)
    (hnd : notes.Nodup) (ops : List CacheOp) (b : Rat) :
    ((applyOps (NoteTimingIndex.init notes) ops).getActiveNotes b).1 =
      ((NoteTimingIndex.init notes).getActiveNotes b).1 :=
  getActiveNotes_faithful_eq notes hnd _
    (cacheFaithful_applyOps notes ops _ (cacheFaithful_init notes)) b

unseal Rat.add Rat.mul Rat.inv in
/-- Witness for the C10 theorem at a concrete one-note index and
operation sequence. -/
theorem getActiveNotes_cache_transparent_witness :
    ([(⟨60, 60, 0, 1⟩ : PlaybackNote)].Nodup) ∧
    ((applyOps (NoteTimingIndex.init [(⟨60, 60, 0, 1⟩ : PlaybackNote)])
        [.query 0, .precompute [0, 2], .clearCache, .query 0]).getActiveNotes 0).1 =
      ((NoteTimingIndex.init [(⟨60, 60, 0, 1⟩ : PlaybackNote)]).getActiveNotes 0).1 :=
  ⟨by decide, getActiveNotes_cache_transparent [(⟨60, 60, 0, 1⟩ : PlaybackNote)]
    (by decide) [.query 0, .precompute [0, 2], .clearCache, .query 0] 0⟩


/-! ### Debounced compiles (part_010 `GenApp` effect, part_014 `activate`)

The app effect re-runs on every change of the compile inputs: it clears
the previous timeout and schedules `compileAndRender` of the captured
latest source after 150 ms.  The editor extension keeps one pending
timeout per document in the `pendingLints` map, cancelling and
rescheduling on each change with a 500 ms delay; the fired callback
deletes the map entry and lints the (live) document.  Neither side
cancels a compile that has already started, and a completed compile's
result is applied with no staleness check, so the environment's
completion order decides what is displayed last. -/

/-- An event of the app-side debounce loop: `change` is any edit of the
source or rendering options (the effect re-runs), `fire` the pending
timeout elapsing (the captured source is submitted to the compiler), and
`complete k` the `k`-th outstanding compile settling (its result is
applied to the display unconditionally). -/
inductive AppEvent (σ : Type) where
  | change (s : σ)
  | fire
  | complete (k : Nat)

/-- State of the app loop: the current source, the pending timeout (with
its captured source and delay in ms), the submitted compiles not yet
settled, and the source whose result the display last applied. -/
structure AppState (σ : Type) where
  genSource : Option σ
  timers : List (σ × Nat)
  inFlight : List σ
  display : Option σ

def appStep {σ : Type} (st : AppState σ) : AppEvent σ → AppState σ
  | .change s => { st with genSource := some s, timers := [(s, 150)] }
  | .fire =>
    match st.timers with
    | [] => st
    | (s, _) :: rest => { st with timers := rest, inFlight := st.inFlight ++ [s] }
  | .complete k =>
    match st.inFlight[k]? with
    | none => st
    | some s => { st with inFlight := st.inFlight.eraseIdx k, display := some s }

def appInit {σ : Type} : AppState σ := ⟨none, [], [], none⟩

def appRun {σ : Type} (evs : List (AppEvent σ)) : AppState σ :=
  evs.foldl appStep appInit

/-- The debounce invariant of the app loop: at most one pending compile,
and the pending timer always carries the latest source with the 150 ms
delay. -/
def appInv {σ : Type} (st : AppState σ) : Prop :=
  st.timers.length ≤ 1 ∧ ∀ t ∈ st.timers, t.2 = 150 ∧ st.genSource = some t.1

theorem appInv_step {σ : Type} (st : AppState σ) (hi : appInv st) (e : AppEvent σ) :
    appInv (appStep st e) := by
  obtain ⟨h1, h2⟩ := hi
  cases e with
  | change s =>
    refine ⟨by simp [appStep], ?_⟩
    intro t ht
    simp only [appStep, List.mem_singleton] at ht
    subst ht
    exact ⟨rfl, rfl⟩
  | fire =>
    rw [appStep]
    split
    · exact ⟨h1, h2⟩
    next s dl rest heq =>
      refine ⟨?_, ?_⟩
      · have hl := h1
        rw [heq] at hl
        simp only [List.length_cons] at hl
        show rest.length ≤ 1
        omega
      · intro t ht
        have hmem : t ∈ st.timers := by
          rw [heq]
          exact List.mem_cons_of_mem _ ht
        exact h2 t hmem
  | complete k =>
    rw [appStep]
    split
    · exact ⟨h1, h2⟩
    · exact ⟨h1, h2⟩

theorem appInv_foldl {σ : Type} (evs : List (AppEvent σ)) :
    ∀ st : AppState σ, appInv st → appInv (evs.foldl appStep st) := by
  induction evs with
  | nil => intro st h; exact h
  | cons e rest ih =>
    intro st h
    rw [List.foldl_cons]
    exact ih _ (appInv_step st h e)

theorem appInv_run {σ : Type} (evs : List (AppEvent σ)) : appInv (appRun evs) :=
  appInv_foldl evs appInit ⟨Nat.zero_le 1, fun t ht => absurd ht (List.not_mem_nil t)⟩

/-- An event of the extension loop: a text change of a document, its
pending lint timer elapsing, or the document closing. -/
inductive ExtEvent (υ σ : Type) where
  | change (uri : υ) (s : σ)
  | fire (uri : υ)
  | close (uri : υ)

/-- State of the extension loop: the `pendingLints` map (uri to delay of
the scheduled timeout), the live text of each document, and the lints
submitted so far with the text they read at submission. -/
structure ExtState (υ σ : Type) where
  pendingLints : List (υ × Nat)
  latest : List (υ × σ)
  lintsStarted : List (υ × Option σ)

def extStep {υ σ : Type} [DecidableEq υ] (st : ExtState υ σ) :
    ExtEvent υ σ → ExtState υ σ
  | .change uri s =>
    { st with pendingLints := mapSet st.pendingLints uri 500,
              latest := mapSet st.latest uri s }
  | .fire uri =>
    match mapGet st.pendingLints uri with
    | none => st
    | some _ =>
      { st with pendingLints := mapDelete st.pendingLints uri,
                lintsStarted := st.lintsStarted ++ [(uri, mapGet st.latest uri)] }
  | .close uri =>
    { st with pendingLints := mapDelete st.pendingLints uri }

def extInit {υ σ : Type} : ExtState υ σ := ⟨[], [], []⟩

def extRun {υ σ : Type} [DecidableEq υ] (evs : List (ExtEvent υ σ)) : ExtState υ σ :=
  evs.foldl extStep extInit

theorem mem_keys_mapSet {κ ν : Type} [DecidableEq κ] (m : List (κ × ν)) (k : κ)
    (v : ν) (x : κ) (h : x ∈ (mapSet m k v).map Prod.fst) :
    x = k ∨ x ∈ m.map Prod.fst := by
  obtain ⟨p, hp, hx⟩ := List.mem_map.mp h
  rcases mem_mapSet _ _ _ _ hp with rfl | hpm
  · exact Or.inl hx.symm
  · exact Or.inr (hx ▸ List.mem_map_of_mem Prod.fst hpm)

theorem mapSet_keys_nodup {κ ν : Type} [DecidableEq κ] (m : List (κ × ν)) (k : κ)
    (v : ν) (h : (m.map Prod.fst).Nodup) : ((mapSet m k v).map Prod.fst).Nodup := by
  induction m with
  | nil => exact List.nodup_singleton k
  | cons q rest ih =>
    obtain ⟨k0, v0⟩ := q
    rw [mapSet]
    by_cases hk : k = k0
    · rw [if_pos hk]
      exact h
    · rw [if_neg hk]
      rw [List.map_cons, List.nodup_cons] at h ⊢
      refine ⟨?_, ih h.2⟩
      intro hmem
      rcases mem_keys_mapSet rest k v k0 hmem with rfl | hmem2
      · exact hk rfl
      · exact h.1 hmem2

theorem mapDelete_sublist {κ ν : Type} [DecidableEq κ] (m : List (κ × ν)) (k : κ) :
    (mapDelete m k).Sublist m := by
  induction m with
  | nil => exact List.Sublist.refl _
  | cons q rest ih =>
    obtain ⟨k0, v0⟩ := q
    rw [mapDelete]
    by_cases hk : k = k0
    · rw [if_pos hk]
      exact List.sublist_cons_self _ _
    · rw [if_neg hk]
      exact ih.cons₂ _

/-- The extension invariant: at most one pending lint per document (the
map keys are duplicate-free) and every scheduled delay is 500 ms. -/
def extInv {υ σ : Type} (st : ExtState υ σ) : Prop :=
  (st.pendingLints.map Prod.fst).Nodup ∧ ∀ e ∈ st.pendingLints, e.2 = 500

theorem extInv_step {υ σ : Type} [DecidableEq υ] (st : ExtState υ σ)
    (hi : extInv st) (e : ExtEvent υ σ) : extInv (extStep st e) := by
  obtain ⟨h1, h2⟩ := hi
  cases e with
  | change uri s =>
    refine ⟨mapSet_keys_nodup _ _ _ h1, ?_⟩
    intro p hp
    rcases mem_mapSet _ _ _ _ hp with rfl | hpm
    · rfl
    · exact h2 p hpm
  | fire uri =>
    rw [extStep]
    split
    · exact ⟨h1, h2⟩
    · refine ⟨((mapDelete_sublist _ _).map Prod.fst).nodup h1, ?_⟩
      intro p hp
      exact h2 p ((mapDelete_sublist _ _).mem hp)
  | close uri =>
    refine ⟨((mapDelete_sublist _ _).map Prod.fst).nodup h1, ?_⟩
    intro p hp
    exact h2 p ((mapDelete_sublist _ _).mem hp)

theorem extInv_foldl {υ σ : Type} [DecidableEq υ] (evs : List (ExtEvent υ σ)) :
    ∀ st : ExtState υ σ, extInv st → extInv (evs.foldl extStep st) := by
  induction evs with
  | nil => intro st h; exact h
  | cons e rest ih =>
    intro st h
    rw [List.foldl_cons]
    exact ih _ (extInv_step st h e)

theorem extInv_run {υ σ : Type} [DecidableEq υ] (evs : List (ExtEvent υ σ)) :
    extInv (extRun evs) :=
  extInv_foldl evs extInit ⟨List.nodup_nil, fun p hp => absurd hp (List.not_mem_nil p)⟩

/-- **C7 (amended).** Each change cancels the previously scheduled,
not-yet-started compile and schedules a fresh one, so at most one compile
is ever pending: in the app the single pending timer always carries the
latest source and the fixed 150 ms delay; in the extension the
`pendingLints` map holds at most one timer per document, always with the
fixed 500 ms delay.  (What the original claim adds — that stale results
of compiles already in flight are discarded — is refuted separately.) -/
theorem debounce_schedules_latest {σ υ : Type} [DecidableEq υ]
    (evs : List (AppEvent σ)) (eevs : List (ExtEvent υ σ)) :
    (appRun evs).timers.length ≤ 1 ∧
    (∀ t ∈ (appRun evs).timers, t.2 = 150 ∧ (appRun evs).genSource = some t.1) ∧
    ((extRun eevs).pendingLints.map Prod.fst).Nodup ∧
    (∀ e ∈ (extRun eevs).pendingLints, e.2 = 500) :=
  ⟨(appInv_run evs).1, (appInv_run evs).2, (extInv_run eevs).1, (extInv_run eevs).2⟩

/-- **C7 counterexample.** Source 1 is compiled, then source 2; both
compiles are in flight, nothing cancels the first or checks results for
staleness, and the older compile completes last: in the final quiescent
state (no timer pending, nothing in flight) the latest source is 2 but
the display shows the result for stale source 1.  Last call does not
win. -/
theorem stale_result_not_discarded :
    (appRun ([.change 1, .fire, .change 2, .fire, .complete 1, .complete 0] :
        List (AppEvent Nat))).timers = [] ∧
    (appRun ([.change 1, .fire, .change 2, .fire, .complete 1, .complete 0] :
        List (AppEvent Nat))).inFlight = [] ∧
    (appRun ([.change 1, .fire, .change 2, .fire, .complete 1, .complete 0] :
        List (AppEvent Nat))).genSource = some 2 ∧
    (appRun ([.change 1, .fire, .change 2, .fire, .complete 1, .complete 0] :
        List (AppEvent Nat))).display = some 1 := by
  refine ⟨rfl, rfl, rfl, rfl⟩


/-! ### Chord highlighting keys (`playbackHighlightController.ts`,
`osmdChordMapper.ts`, gen-ui `types/index.ts`, `useBreakpoint.ts`)

The highlight consumer correlates chords to rendered symbols through the
key `osmdTimestamp.toFixed(3)` (`OSMDChordMapper.makeKey` and the
`activeTimestampSet` of `updateChordHighlight`), although the declared
`PlaybackChord` interface carries only `midiNotes`, `startTime` and
`duration`.  The runtime chord objects therefore must also carry
`osmdTimestamp`, which the controller dereferences directly. -/

/-- Decimal digits of a natural number; the fuel bounds the digit count. -/
def natDigitsAux : Nat → Nat → List Char
  | 0, _ => []
  | _ + 1, 0 => []
  | fuel + 1, n + 1 =>
    natDigitsAux fuel ((n + 1) / 10) ++ [Char.ofNat (48 + (n + 1) % 10)]

def natDigits (n : Nat) : List Char :=
  if n = 0 then ['0'] else natDigitsAux n n

/-- Decimal rendering of an integer (JS template interpolation of an
integral number). -/
def intDigits (i : Int) : List Char :=
  if i < 0 then '-' :: natDigits i.natAbs else natDigits i.natAbs

/-- Three digits with leading zeros. -/
def pad3 (n : Nat) : List Char :=
  [Char.ofNat (48 + n / 100 % 10), Char.ofNat (48 + n / 10 % 10), Char.ofNat (48 + n % 10)]

/-- JS `Number.prototype.toFixed(3)` on a non-negative rational: round
to the nearest thousandth, ties to the larger, and print with exactly
three decimals. -/
def toFixed3Abs (q : Rat) : List Char :=
  natDigits ((q * 1000 + 1 / 2).floor.toNat / 1000) ++
    '.' :: pad3 ((q * 1000 + 1 / 2).floor.toNat % 1000)

/-- JS `Number.prototype.toFixed(3)`: a negative input renders as the
minus sign followed by `toFixed` of its absolute value. -/
def toFixed3 (q : Rat) : List Char :=
  if q < 0 then '-' :: toFixed3Abs (-q) else toFixed3Abs q

/-- The chord object the highlight consumer actually reads: the three
fields declared by `PlaybackChord` plus `osmdTimestamp`, which
`updateChordHighlight` and `OSMDChordMapper.findChordContainers`
dereference even though the declared interface does not carry it (the
wire objects do; the controller constructor logs
`c.osmdTimestamp.toFixed(3)` for each chord). -/
structure PlaybackChordRt where
  midiNotes : List Int
  startTime : Rat
  duration : Rat
  osmdTimestamp : Rat
deriving DecidableEq, Repr

/-- An indexed runtime chord, as `IndexedChord` at the runtime type. -/
structure IndexedChordRt where
  chord : PlaybackChordRt
  endTime : Rat
deriving DecidableEq, Repr

def defaultIndexedChordRt : IndexedChordRt := ⟨⟨[], 0, 0, 0⟩, 0⟩

/-- The `ChordTimingIndex` constructor at the runtime chord type (the
controller builds its index from the wire chords). -/
def ChordTimingIndexRt.build (chords : List PlaybackChordRt) : List IndexedChordRt :=
  sortByKey (fun ic => ic.chord.startTime)
    (chords.map fun chord => ⟨chord, chord.startTime + chord.duration⟩)

/-- `ChordTimingIndex.getActiveChords` at the runtime chord type. -/
def ChordTimingIndexRt.getActiveChords (idx : List IndexedChordRt) (beatPosition : Rat) :
    List PlaybackChordRt :=
  (activeScan (fun ic => ic.chord.startTime) IndexedChordRt.endTime defaultIndexedChordRt
      idx beatPosition).map IndexedChordRt.chord

/-- The playback note as declared in `useBreakpoint.ts` — the wire shape
of a timing-request note event: concert and display MIDI pitch, start and
duration in beats, ordering and measure bookkeeping, the OSMD display
timestamp and the precomputed match key. -/
structure PlaybackNoteWire where
  midiNote : Int
  displayMidiNote : Int
  startTime : Rat
  duration : Rat
  noteIndex : Nat
  measureNumber : Nat
  beatInMeasure : Rat
  osmdTimestamp : Rat
  osmdMatchKey : List Char
deriving DecidableEq, Repr

/-- The note match-key convention (the key format the declared comment
and the adapter tests state): display MIDI, an underscore, and the
display timestamp with three fixed decimals. -/
def mkOsmdMatchKey (displayMidi : Int) (osmdTimestamp : Rat) : List Char :=
  intDigits displayMidi ++ '_' :: toFixed3 osmdTimestamp

/-- The correlation key of `updateChordHighlight` and
`OSMDChordMapper.makeKey`: `chord.osmdTimestamp.toFixed(3)`. -/
def chordKey (chord : PlaybackChordRt) : List Char := toFixed3 chord.osmdTimestamp

/-- One `updateChordHighlight(currentBeat)` step against a previous
highlighted-key state: the keys to unhighlight, the chords to newly
highlight, and the new state `activeTimestampSet` (the `Set` of keys of
the chords active at the beat). -/
def updateChordHighlight (idx : List IndexedChordRt)
    (currentlyHighlighted : List (List Char)) (currentBeat : Rat) :
    List (List Char) × List PlaybackChordRt × List (List Char) :=
  let activeChords := ChordTimingIndexRt.getActiveChords idx currentBeat
  let activeTimestampSet := jsSetOfList (activeChords.map chordKey)
  (currentlyHighlighted.filter fun timestamp => decide (timestamp ∉ activeTimestampSet),
   activeChords.filter fun chord => decide (chordKey chord ∉ currentlyHighlighted),
   activeTimestampSet)

theorem map_chordRt_mk (l : List PlaybackChordRt) :
    l.map (IndexedChordRt.chord ∘ fun chord =>
      (⟨chord, chord.startTime + chord.duration⟩ : IndexedChordRt)) = l := by
  induction l with
  | nil => rfl
  | cons x r ih =>
    rw [List.map_cons, ih]
    rfl

theorem getActiveChordsRt_build_perm (chords : List PlaybackChordRt) (b : Rat) :
    (ChordTimingIndexRt.getActiveChords (ChordTimingIndexRt.build chords) b).Perm
      (chords.filter fun c => decide (c.startTime ≤ b ∧ b < c.startTime + c.duration)) := by
  have h := activeScan_sorted_map_perm (fun ic : IndexedChordRt => ic.chord.startTime)
    IndexedChordRt.endTime defaultIndexedChordRt IndexedChordRt.chord
    (fun chord => ⟨chord, chord.startTime + chord.duration⟩) chords b
  rw [List.filter_map, List.map_map, map_chordRt_mk] at h
  exact h

theorem mem_jsSetAux {α : Type} [DecidableEq α] :
    ∀ (l seen : List α) (x : α), x ∈ jsSetAux seen l ↔ x ∈ l ∧ x ∉ seen := by
  intro l
  induction l with
  | nil =>
    intro seen x
    simp [jsSetAux]
  | cons y rest ih =>
    intro seen x
    rw [jsSetAux]
    by_cases hy : y ∈ seen
    · rw [if_pos hy, ih seen x]
      constructor
      · rintro ⟨h1, h2⟩
        exact ⟨List.mem_cons_of_mem _ h1, h2⟩
      · rintro ⟨h1, h2⟩
        rcases List.mem_cons.mp h1 with rfl | h1
        · exact absurd hy h2
        · exact ⟨h1, h2⟩
    · rw [if_neg hy]
      constructor
      · intro h
        rcases List.mem_cons.mp h with rfl | h
        · exact ⟨List.mem_cons_self _ _, hy⟩
        · obtain ⟨h1, h2⟩ := (ih (y :: seen) x).mp h
          refine ⟨List.mem_cons_of_mem _ h1, ?_⟩
          intro hx
          exact h2 (List.mem_cons_of_mem _ hx)
      · rintro ⟨h1, h2⟩
        rcases List.mem_cons.mp h1 with rfl | h1
        · exact List.mem_cons_self _ _
        · by_cases hxy : x = y
          · subst hxy
            exact List.mem_cons_self _ _
          · refine List.mem_cons_of_mem _ ((ih (y :: seen) x).mpr ⟨h1, ?_⟩)
            intro hx
            rcases List.mem_cons.mp hx with h3 | h3
            · exact hxy h3
            · exact h2 h3

/-- Membership in the `Set` round trip is membership in the list. -/
theorem mem_jsSetOfList {α : Type} [DecidableEq α] (l : List α) (x : α) :
    x ∈ jsSetOfList l ↔ x ∈ l := by
  rw [jsSetOfList, mem_jsSetAux]
  simp

/-- **C2 (amended).** The declared chord triple is not what the
highlighting consumer keys on: the runtime chords carry the extra field
`osmdTimestamp`, and the consumer correlates exclusively through
`toFixed(3)` of that field.  For every chord list, previous highlight
state and beat: the new highlighted-key state holds exactly the keys of
the chords active at the beat (`startTime <= b < startTime + duration`),
a chord is newly highlighted only if it is active and its key was not
highlighted before, a key is unhighlighted only if it was highlighted and
no active chord carries it, and the note match key combines display MIDI
and display timestamp as claimed. -/
theorem chord_highlight_key_spec (chords : List PlaybackChordRt)
    (cur : List (List Char)) (b : Rat) :
    (∀ c : PlaybackChordRt, chordKey c = toFixed3 c.osmdTimestamp) ∧
    (∀ t, t ∈ (updateChordHighlight (ChordTimingIndexRt.build chords) cur b).2.2 ↔
      ∃ c ∈ chords, (c.startTime ≤ b ∧ b < c.startTime + c.duration) ∧ chordKey c = t) ∧
    (∀ c ∈ (updateChordHighlight (ChordTimingIndexRt.build chords) cur b).2.1,
      chordKey c ∉ cur ∧ c.startTime ≤ b ∧ b < c.startTime + c.duration) ∧
    (∀ t ∈ (updateChordHighlight (ChordTimingIndexRt.build chords) cur b).1,
      t ∈ cur ∧
        ¬ ∃ c ∈ chords, (c.startTime ≤ b ∧ b < c.startTime + c.duration) ∧ chordKey c = t) ∧
    (∀ dm : Int, ∀ ts : Rat, mkOsmdMatchKey dm ts = intDigits dm ++ '_' :: toFixed3 ts) := by
  have hmem : ∀ c, c ∈ ChordTimingIndexRt.getActiveChords (ChordTimingIndexRt.build chords) b ↔
      c ∈ chords ∧ (c.startTime ≤ b ∧ b < c.startTime + c.duration) := by
    intro c
    rw [(getActiveChordsRt_build_perm chords b).mem_iff, List.mem_filter, decide_eq_true_eq]
  have hset : ∀ t, t ∈ (updateChordHighlight (ChordTimingIndexRt.build chords) cur b).2.2 ↔
      ∃ c ∈ chords, (c.startTime ≤ b ∧ b < c.startTime + c.duration) ∧ chordKey c = t := by
    intro t
    rw [updateChordHighlight]
    rw [mem_jsSetOfList, List.mem_map]
    constructor
    · rintro ⟨c, hc, rfl⟩
      obtain ⟨h1, h2⟩ := (hmem c).mp hc
      exact ⟨c, h1, h2, rfl⟩
    · rintro ⟨c, h1, h2, rfl⟩
      exact ⟨c, (hmem c).mpr ⟨h1, h2⟩, rfl⟩
  refine ⟨fun _ => rfl, hset, ?_, ?_, fun _ _ => rfl⟩
  · intro c hc
    rw [updateChordHighlight] at hc
    obtain ⟨hca, hck⟩ := List.mem_filter.mp hc
    rw [decide_eq_true_eq] at hck
    obtain ⟨-, h2⟩ := (hmem c).mp hca
    exact ⟨hck, h2⟩
  · intro t ht
    rw [updateChordHighlight] at ht
    obtain ⟨htc, htk⟩ := List.mem_filter.mp ht
    rw [decide_eq_true_eq] at htk
    refine ⟨htc, ?_⟩
    intro hex
    exact htk ((hset t).mpr hex)

unseal Rat.add Rat.mul Rat.inv in
/-- **C2 counterexample.** Two runtime chords with identical declared
fields (`midiNotes`, `startTime`, `duration`) but different
`osmdTimestamp` get different correlation keys in the highlight
consumer, so the declared triple alone does not suffice to correlate
chords to rendered symbols. -/
theorem declared_chord_fields_insufficient :
    ¬ (∀ c1 c2 : PlaybackChordRt, c1.midiNotes = c2.midiNotes →
        c1.startTime = c2.startTime → c1.duration = c2.duration →
        chordKey c1 = chordKey c2) := by
  intro h
  have hk := h ⟨[60], 0, 1, 0⟩ ⟨[60], 0, 1, 2⟩ rfl rfl rfl
  exact absurd hk (by decide)


/-! ### The web compile adapter (gen-web `adapters.ts`)

`wasmCompiler.compile` awaits `ensureInit()` (outside its try/catch),
calls the wasm `compile_with_options`, and on a throw `JSON.parse`s the
thrown message — the wasm layer throws the structured error as a JSON
string — passing the parsed value through as the error, with the
fallback `{message, line: null, column: null}` when parsing fails.
`JSON.parse` is embedded below as a total function on character lists. -/

/-- A parsed JSON value. -/
inductive Json where
  | null
  | bool (b : Bool)
  | num (q : Rat)
  | str (s : List Char)
  | arr (elems : List Json)
  | obj (fields : List (List Char × Json))

def isJsonWs (c : Char) : Bool :=
  c = ' ' || c = '\t' || c = '\n' || c = '\r'

def skipJsonWs : List Char → List Char
  | [] => []
  | c :: rest => if isJsonWs c then skipJsonWs rest else c :: rest

/-- The two-character escapes of a JSON string. -/
def escChar (c : Char) : Option Char :=
  if c = '"' then some '"'
  else if c = '\\' then some '\\'
  else if c = '/' then some '/'
  else if c = 'b' then some (Char.ofNat 8)
  else if c = 'f' then some (Char.ofNat 12)
  else if c = 'n' then some '\n'
  else if c = 'r' then some '\r'
  else if c = 't' then some '\t'
  else none

def hexVal (c : Char) : Option Nat :=
  if '0' ≤ c ∧ c ≤ '9' then some (c.toNat - 48)
  else if 'a' ≤ c ∧ c ≤ 'f' then some (c.toNat - 87)
  else if 'A' ≤ c ∧ c ≤ 'F' then some (c.toNat - 55)
  else none

/-- The body of a JSON string after the opening quote: the decoded
characters and the input after the closing quote.  Control characters
are rejected; a `\u` escape decodes its 16-bit code unit. -/
def parseJsonStringBody : List Char → Option (List Char × List Char)
  | [] => none
  | '"' :: rest => some ([], rest)
  | '\\' :: rest =>
    match rest with
    | 'u' :: h1 :: h2 :: h3 :: h4 :: rest2 =>
      (match hexVal h1, hexVal h2, hexVal h3, hexVal h4, parseJsonStringBody rest2 with
       | some a, some b, some c, some d, some (cs, r) =>
         some (Char.ofNat (((a * 16 + b) * 16 + c) * 16 + d) :: cs, r)
       | _, _, _, _, _ => none)
    | e :: rest2 =>
      (match escChar e, parseJsonStringBody rest2 with
       | some c, some (cs, r) => some (c :: cs, r)
       | _, _ => none)
    | [] => none
  | c :: rest =>
    if c.toNat < 32 then none
    else match parseJsonStringBody rest with
      | some (cs, r) => some (c :: cs, r)
      | none => none

def spanDigits : List Char → List Char × List Char
  | [] => ([], [])
  | c :: rest =>
    if '0' ≤ c ∧ c ≤ '9' then
      ((spanDigits rest).1.cons c, (spanDigits rest).2)
    else ([], c :: rest)

def digitsVal (ds : List Char) : Nat :=
  ds.foldl (fun a c => a * 10 + (c.toNat - 48)) 0

/-- The integer part of a JSON number: digits without a redundant
leading zero. -/
def parseIntPart (s : List Char) : Option (Nat × List Char) :=
  match spanDigits s with
  | ([], _) => none
  | (ds, r) =>
    if ds.length > 1 ∧ ds.headD '0' = '0' then none else some (digitsVal ds, r)

/-- The optional fraction: its digit value and digit count. -/
def parseFracPart (s : List Char) : Option (Nat × Nat × List Char) :=
  match s with
  | '.' :: r =>
    (match spanDigits r with
     | ([], _) => none
     | (ds, r2) => some (digitsVal ds, ds.length, r2))
  | _ => some (0, 0, s)

def parseExpDigits (s : List Char) (neg : Bool) : Option (Int × List Char) :=
  match spanDigits s with
  | ([], _) => none
  | (ds, r) => some (if neg then -(digitsVal ds : Int) else (digitsVal ds : Int), r)

def parseExpSign (s : List Char) : Option (Int × List Char) :=
  match s with
  | '+' :: r => parseExpDigits r false
  | '-' :: r => parseExpDigits r true
  | _ => parseExpDigits s false

def parseExpPart (s : List Char) : Option (Int × List Char) :=
  match s with
  | 'e' :: r => parseExpSign r
  | 'E' :: r => parseExpSign r
  | _ => some (0, s)

def tenPow (n : Nat) : Rat := (10 : Rat) ^ n

/-- A JSON number: sign, integer part, optional fraction, optional
exponent, combined into an exact rational. -/
def parseJsonNumber (s : List Char) : Option (Rat × List Char) :=
  match (match s with
         | '-' :: r => (true, r)
         | _ => (false, s)) with
  | (neg, s1) =>
    match parseIntPart s1 with
    | none => none
    | some (ip, s2) =>
      match parseFracPart s2 with
      | none => none
      | some (fv, fc, s3) =>
        match parseExpPart s3 with
        | none => none
        | some (ex, s4) =>
          some ((if neg then (-1 : Rat) else 1) *
            (((ip : Rat) + (fv : Rat) / tenPow fc) *
              (if 0 ≤ ex then tenPow ex.toNat else 1 / tenPow (-ex).toNat)), s4)

mutual

/-- A JSON value with leading whitespace; the fuel dominates the input
length, which bounds the recursion depth. -/
def parseJsonValue : Nat → List Char → Option (Json × List Char)
  | 0, _ => none
  | fuel + 1, s =>
    match skipJsonWs s with
    | 'n' :: 'u' :: 'l' :: 'l' :: r => some (.null, r)
    | 't' :: 'r' :: 'u' :: 'e' :: r => some (.bool true, r)
    | 'f' :: 'a' :: 'l' :: 's' :: 'e' :: r => some (.bool false, r)
    | '"' :: r =>
      (match parseJsonStringBody r with
       | some (cs, r2) => some (.str cs, r2)
       | none => none)
    | '[' :: r =>
      (match skipJsonWs r with
       | ']' :: r2 => some (.arr [], r2)
       | s2 =>
         match parseJsonElems fuel s2 with
         | some (es, r2) => some (.arr es, r2)
         | none => none)
    | '{' :: r =>
      (match skipJsonWs r with
       | '}' :: r2 => some (.obj [], r2)
       | s2 =>
         match parseJsonMembers fuel s2 with
         | some (fs, r2) => some (.obj fs, r2)
         | none => none)
    | s1 =>
      (match parseJsonNumber s1 with
       | some (q, r) => some (.num q, r)
       | none => none)

/-- The non-empty element list of a JSON array, up to and including the
closing bracket. -/
def parseJsonElems : Nat → List Char → Option (List Json × List Char)
  | 0, _ => none
  | fuel + 1, s =>
    match parseJsonValue fuel s with
    | none => none
    | some (v, r) =>
      match skipJsonWs r with
      | ',' :: r2 =>
        (match parseJsonElems fuel r2 with
         | some (es, r3) => some (v :: es, r3)
         | none => none)
      | ']' :: r2 => some ([v], r2)
      | _ => none

/-- The non-empty member list of a JSON object, up to and including the
closing brace. -/
def parseJsonMembers : Nat → List Char → Option (List (List Char × Json) × List Char)
  | 0, _ => none
  | fuel + 1, s =>
    match skipJsonWs s with
    | '"' :: r =>
      (match parseJsonStringBody r with
       | none => none
       | some (k, r2) =>
         match skipJsonWs r2 with
         | ':' :: r3 =>
           (match parseJsonValue fuel r3 with
            | none => none
            | some (v, r4) =>
              match skipJsonWs r4 with
              | ',' :: r5 =>
                (match parseJsonMembers fuel r5 with
                 | some (fs, r6) => some ((k, v) :: fs, r6)
                 | none => none)
              | '}' :: r5 => some ([(k, v)], r5)
              | _ => none)
         | _ => none)
    | _ => none

end

/-- JS `JSON.parse`: one value, then nothing but whitespace. -/
def jsonParse (s : List Char) : Option Json :=
  match parseJsonValue (s.length + 1) s with
  | some (v, r) => if skipJsonWs r = [] then some v else none
  | none => none

def isIntOrNullJson : Json → Bool
  | .null => true
  | .num q => q.den == 1
  | _ => false

def isStringJson : Json → Bool
  | .str _ => true
  | _ => false

/-- The structured error shape of the spec: exactly the fields
`message: string`, `line: int|null`, `column: int|null`. -/
def isStructuredErrorJson : Json → Bool
  | .obj [(k1, v1), (k2, v2), (k3, v3)] =>
    (k1 == "message".toList) && isStringJson v1 &&
    (k2 == "line".toList) && isIntOrNullJson v2 &&
    (k3 == "column".toList) && isIntOrNullJson v3
  | _ => false

/-- Modelled from the spec: one wasm compile call either returns the
interchange XML or throws, and the adapter collapses a thrown value to
its message string (`e instanceof Error ? e.message : String(e)`); the
spec makes the compiler report a structured error, which the wasm layer
throws as its JSON rendering. -/
inductive WasmOutcome where
  | ok (xml : List Char)
  | thrown (message : List Char)

/-- Modelled from the spec: `ensureInit` awaits the wasm module load,
which either succeeds or rejects with some message. -/
inductive InitOutcome where
  | ok
  | failed (message : List Char)

/-- The result value of `wasmCompiler.compile`: the success record with
the XML, or the error record whose `error` field is whatever value the
catch block produced. -/
inductive CompileResultJ where
  | success (xml : List Char)
  | error (e : Json)

/-- `wasmCompiler.compile`: a failed `init` rejection propagates (the
call is outside the try/catch); otherwise the compile either succeeds or
its thrown message is `JSON.parse`d and passed through, with the
`{message, line: null, column: null}` fallback when parsing fails. -/
def wasmCompilerCompile (initOutcome : InitOutcome) (raw : WasmOutcome) :
    Except (List Char) CompileResultJ :=
  match initOutcome with
  | .failed msg => .error msg
  | .ok =>
    match raw with
    | .ok xml => .ok (.success xml)
    | .thrown msg =>
      match jsonParse msg with
      | some v => .ok (.error v)
      | none => .ok (.error (.obj [("message".toList, .str msg),
          ("line".toList, .null), ("column".toList, .null)]))

/-- **C1 counterexample.** The `await ensureInit()` sits outside the
try/catch of `compile`: a failed wasm-module load makes the returned
promise reject instead of producing a result record, so the entry point
does not unconditionally never-throw. -/
theorem wasmCompile_throws_on_init_failure :
    ¬ ∀ (initOutcome : InitOutcome) (raw : WasmOutcome),
        ∃ r, wasmCompilerCompile initOutcome raw = .ok r := by
  intro h
  obtain ⟨r, hr⟩ := h (.failed "load failed".toList) (.ok [])
  cases hr

/-- **C1 (amended).** Once the wasm module is loaded, `compile` never
throws: it returns the success record with the XML exactly on a compiler
success; on a throw it returns an error record, whose value has exactly
the structured shape `{message: string, line: int|null, column: int|null}`
provided the compiler's thrown messages, whenever they parse as JSON at
all, are the structured error object of the spec; and whenever the
thrown message is not parseable JSON, the error is exactly
`{message: the raw message, line: null, column: null}`. -/
theorem wasmCompile_returns_structured (raw : WasmOutcome)
    (hspec : ∀ msg v, raw = .thrown msg → jsonParse msg = some v →
      isStructuredErrorJson v = true) :
    (∃ r, wasmCompilerCompile .ok raw = .ok r) ∧
    (∀ xml, raw = .ok xml → wasmCompilerCompile .ok raw = .ok (.success xml)) ∧
    (∀ msg, raw = .thrown msg →
      ∃ e, wasmCompilerCompile .ok raw = .ok (.error e) ∧
        isStructuredErrorJson e = true) ∧
    (∀ msg, raw = .thrown msg → jsonParse msg = none →
      wasmCompilerCompile .ok raw = .ok (.error (.obj [("message".toList, .str msg),
        ("line".toList, .null), ("column".toList, .null)]))) := by
  refine ⟨?_, ?_, ?_, ?_⟩
  · cases raw with
    | ok xml => exact ⟨.success xml, rfl⟩
    | thrown msg =>
      cases hj : jsonParse msg with
      | some v =>
        refine ⟨.error v, ?_⟩
        rw [wasmCompilerCompile, hj]
      | none =>
        refine ⟨.error (.obj [("message".toList, .str msg),
          ("line".toList, .null), ("column".toList, .null)]), ?_⟩
        rw [wasmCompilerCompile, hj]
  · intro xml hx
    subst hx
    rfl
  · intro msg hm
    subst hm
    cases hj : jsonParse msg with
    | some v =>
      refine ⟨v, ?_, hspec msg v rfl hj⟩
      rw [wasmCompilerCompile, hj]
    | none =>
      refine ⟨.obj [("message".toList, .str msg),
        ("line".toList, .null), ("column".toList, .null)], ?_, rfl⟩
      rw [wasmCompilerCompile, hj]
  · intro msg hm hj
    subst hm
    rw [wasmCompilerCompile, hj]


/-- A structured error message as the wasm layer throws it. -/
def sampleErrJson : List Char :=
  ("\x7b\"message\":\"bad note\",\"line\":1,\"column\":2\x7d").toList

unseal Rat.add Rat.mul Rat.inv in
/-- Witness for the amended C1 theorem: a compile that throws the sample
structured JSON message satisfies the hypothesis, and the conclusion
follows by the theorem. -/
theorem wasmCompile_returns_structured_witness :
    (∀ msg v, WasmOutcome.thrown sampleErrJson = .thrown msg →
      jsonParse msg = some v → isStructuredErrorJson v = true) ∧
    ((∃ r, wasmCompilerCompile .ok (.thrown sampleErrJson) = .ok r) ∧
     (∀ xml, WasmOutcome.thrown sampleErrJson = .ok xml →
       wasmCompilerCompile .ok (.thrown sampleErrJson) = .ok (.success xml)) ∧
     (∀ msg, WasmOutcome.thrown sampleErrJson = .thrown msg →
       ∃ e, wasmCompilerCompile .ok (.thrown sampleErrJson) = .ok (.error e) ∧
         isStructuredErrorJson e = true) ∧
     (∀ msg, WasmOutcome.thrown sampleErrJson = .thrown msg → jsonParse msg = none →
       wasmCompilerCompile .ok (.thrown sampleErrJson) =
         .ok (.error (.obj [("message".toList, .str msg),
           ("line".toList, .null), ("column".toList, .null)])))) :=
  have hspec : ∀ msg v, WasmOutcome.thrown sampleErrJson = .thrown msg →
      jsonParse msg = some v → isStructuredErrorJson v = true := by
    intro msg v hm hv
    cases hm
    have hev : jsonParse sampleErrJson =
        some (.obj [("message".toList, .str "bad note".toList),
          ("line".toList, .num 1), ("column".toList, .num 2)]) := rfl
    rw [hev] at hv
    cases hv
    rfl
  ⟨hspec, wasmCompile_returns_structured (.thrown sampleErrJson) hspec⟩

end Gen
